import Mathlib

set_option maxHeartbeats 1000000

/-!
A shallow embedding of the `lte` terminal text editor (Go sources
`highlight.go` and the main editor file): the row data model with raw and
rendered text, the syntax-highlighting scanner with its cross-row
open-comment flag, the column maps, the key decoder, the search loop and
the save/load byte format.  All text is modelled as `List Char` at the
byte-oriented granularity the source itself uses.
-/

/-- Highlight tags, one per rendered character (source: `highlightNormal`,
`highlightComment`, `highlightMultiComment`, `highlightKeyword1`,
`highlightKeyword2`, `highlightString`, `highlightNumber`,
`highlightMatch`). -/
inductive EHighlight where
  | normal
  | comment
  | multiComment
  | keyword1
  | keyword2
  | stringHl
  | number
  | matchHl
deriving DecidableEq, Repr

/-- Source constant `tabStop int = 8`. -/
def tabStop : Nat := 8

/-- Flag bit `enableNumberHighlight = 1 << iota` (first). -/
def enableNumberHighlight : Nat := 1

/-- Flag bit `enableStringHighlight` (second, `1 << 1`). -/
def enableStringHighlight : Nat := 2

/-- Source struct `editorSyntax`. -/
structure EditorSyntax where
  fileType : String
  matchers : List String
  keywords : List (List Char)
  singleLineCommentStart : List Char
  multilineCommentStart : List Char
  multilineCommentEnd : List Char
  flags : Nat

/-- The single entry of `highlightDB` (the Go profile). -/
def goSyntax : EditorSyntax where
  fileType := "go"
  matchers := [".go"]
  keywords :=
    (["switch", "if", "for", "range", "break", "continue", "return", "else",
      "case", "struct", "type",
      "int|", "int32|", "int64|",
      "uint|", "uint32|", "uint64|",
      "float|", "float32|", "float64|",
      "string|", "rune|", "byte|", "map|", "chan|", "error|",
      "func|"] : List String).map String.toList
  singleLineCommentStart := "//".toList
  multilineCommentStart := "/*".toList
  multilineCommentEnd := "*/".toList
  flags := enableNumberHighlight ||| enableStringHighlight

/-- The Go rune value `0`, used by the source as the "no open string" marker. -/
def nullChar : Char := Char.ofNat 0

/-- Source `isSeparator`: space, the null rune, or one of the fixed
punctuation set. -/
def isSeparator (ch : Char) : Bool :=
  ch == ' ' || ch == nullChar ||
    ([',', '.', '(', ')', '+', '-', '/', '*', '=', '~', '%', '<', '>',
      '[', ']', ';'] : List Char).contains ch

/-- `strings.HasPrefix s pat` on byte lists: `pfxOf pat s` holds when `s`
starts with `pat`. -/
def pfxOf : List Char → List Char → Bool
  | [], _ => true
  | _ :: _, [] => false
  | p :: ps, c :: cs => p == c && pfxOf ps cs

/-- `strings.Index s q >= 0`: `q` occurs as a contiguous substring of `s`. -/
def subOf (q : List Char) : List Char → Bool
  | [] => pfxOf q []
  | c :: t => pfxOf q (c :: t) || subOf q t

/-- Writes tag `t` to the `n` positions starting at `i` (the source's
`for j := i; j < bound; j++ { row.highlight[j] = t }` loops). -/
def fillRange (hl : List EHighlight) (i n : Nat) (t : EHighlight) : List EHighlight :=
  match n with
  | 0 => hl
  | m + 1 => fillRange (hl.set i t) (i + 1) m t

/-- `row.highlight = slices.Grow(row.highlight, len(render))[:len(render)]`:
the retained prefix keeps its old tags, newly exposed positions are the
zero value `normal`. -/
def resizeHl (hl : List EHighlight) (n : Nat) : List EHighlight :=
  hl.take n ++ List.replicate (n - hl.length) EHighlight.normal

/-- The keyword loop of `editorUpdateSyntax` (rule 5): tries each keyword
pattern in registry order; `"|"`-suffixed patterns are secondary; a pattern
matches when the text at `i` starts with the trimmed keyword and the
character after it is a separator or the keyword reaches end of row. -/
def findKeyword (render : List Char) (i : Nat) : List (List Char) → Option (List Char × Bool)
  | [] => none
  | kp :: rest =>
    let isSecondary := kp.getLast? == some '|'
    let keyword := if isSecondary then kp.dropLast else kp
    if pfxOf keyword (render.drop i) then
      if (decide (i + keyword.length < render.length) &&
            isSeparator (render.getD (i + keyword.length) nullChar)) ||
          i + keyword.length == render.length then
        some (keyword, isSecondary)
      else
        findKeyword render i rest
    else
      findKeyword render i rest

/-- Guard of classification rule 1 (line comment) in `editorUpdateSyntax`. -/
def lineCommentGuard (syn : EditorSyntax) (render : List Char) (i : Nat) (ss : Char) (inC : Bool) : Bool :=
  decide (0 < syn.singleLineCommentStart.length) && ss == nullChar && !inC &&
    pfxOf syn.singleLineCommentStart (render.drop i)

/-- Guard of classification rule 2 (block comment) in `editorUpdateSyntax`:
markers configured, not in a string, and either already inside a block
comment or the opener starts here. -/
def blockCommentGuard (syn : EditorSyntax) (render : List Char) (i : Nat) (ss : Char) (inC : Bool) : Bool :=
  decide (0 < syn.multilineCommentStart.length) &&
    decide (0 < syn.multilineCommentEnd.length) && ss == nullChar &&
    (inC || pfxOf syn.multilineCommentStart (render.drop i))

/-- Guard of classification rule 3 (string literal) in `editorUpdateSyntax`. -/
def stringGuard (syn : EditorSyntax) (ch ss : Char) : Bool :=
  (syn.flags &&& enableStringHighlight) != 0 &&
    (!(ss == nullChar) || ch == '"' || ch == '\'')

/-- Guard of classification rule 4 (numeric literal) in `editorUpdateSyntax`. -/
def numberGuard (syn : EditorSyntax) (ch : Char) (prevHl : EHighlight) (ips : Bool) : Bool :=
  (syn.flags &&& enableNumberHighlight) != 0 &&
    ((decide ('0' ≤ ch) && decide (ch ≤ '9') && (ips || prevHl == EHighlight.number)) ||
      (ch == '.' && prevHl == EHighlight.number))

/-- `prevHl` of the scan: the tag at `i - 1`, `normal` at the row start. -/
def prevHlAt (hl : List EHighlight) (i : Nat) : EHighlight :=
  if 0 < i then hl.getD (i - 1) EHighlight.normal else EHighlight.normal

/-- The scanning loop of `editorUpdateSyntax`, position by position over the
rendered text.  State: current index `i`, the tag array, `isPrevSep`, the
open string delimiter (`nullChar` for none) and the in-block-comment flag.
`fuel` bounds the iteration count; every loop iteration of the source
advances `i` by at least one (all registered keywords are nonempty), so
`render.length` fuel reproduces the source exactly. -/
def updateSyntaxLoop (syn : EditorSyntax) (render : List Char) :
    Nat → Nat → List EHighlight → Bool → Char → Bool → List EHighlight × Bool
  | 0, _, hl, _, _, inC => (hl, inC)
  | fuel + 1, i, hl, ips, ss, inC =>
    if i < render.length then
      if lineCommentGuard syn render i ss inC then
        (fillRange hl i (hl.length - i) EHighlight.comment, inC)
      else if blockCommentGuard syn render i ss inC then
        if inC then
          if pfxOf syn.multilineCommentEnd (render.drop i) then
            updateSyntaxLoop syn render fuel (i + syn.multilineCommentEnd.length)
              (fillRange (hl.set i EHighlight.multiComment) i
                syn.multilineCommentEnd.length EHighlight.multiComment)
              true ss false
          else
            updateSyntaxLoop syn render fuel (i + 1)
              (hl.set i EHighlight.multiComment) ips ss inC
        else
          updateSyntaxLoop syn render fuel (i + syn.multilineCommentStart.length)
            (fillRange hl i syn.multilineCommentStart.length EHighlight.multiComment)
            ips ss true
      else if stringGuard syn (render.getD i nullChar) ss then
        if !(ss == nullChar) then
          if render.getD i nullChar == '\\' && decide (i + 1 < render.length) then
            updateSyntaxLoop syn render fuel (i + 2)
              ((hl.set i EHighlight.stringHl).set (i + 1) EHighlight.stringHl) ips ss inC
          else
            updateSyntaxLoop syn render fuel (i + 1) (hl.set i EHighlight.stringHl)
              true (if render.getD i nullChar == ss then nullChar else ss) inC
        else
          updateSyntaxLoop syn render fuel (i + 1) (hl.set i EHighlight.stringHl)
            ips (render.getD i nullChar) inC
      else if numberGuard syn (render.getD i nullChar) (prevHlAt hl i) ips then
        updateSyntaxLoop syn render fuel (i + 1) (hl.set i EHighlight.number)
          false ss inC
      else
        match (if ips then findKeyword render i syn.keywords else none) with
        | some (kw, sec) =>
          updateSyntaxLoop syn render fuel (i + kw.length)
            (fillRange hl i (render.length - i)
              (if sec then EHighlight.keyword2 else EHighlight.keyword1))
            false ss inC
        | none =>
          updateSyntaxLoop syn render fuel (i + 1) (hl.set i EHighlight.normal)
            (isSeparator (render.getD i nullChar)) ss inC
    else
      (hl, inC)

/-- One row's recomputation under an active profile: resize the tag array
to the rendered length, then scan from position `0` with `isPrevSep` true,
no open string, and the given predecessor open-comment flag.  Returns the
new tags and the row's open-comment-at-end flag. -/
def editorUpdateSyntaxRow (syn : EditorSyntax) (render : List Char)
    (hl0 : List EHighlight) (inC0 : Bool) : List EHighlight × Bool :=
  updateSyntaxLoop syn render render.length 0 (resizeHl hl0 render.length) true nullChar inC0

/-- Source struct `editorRow`. -/
structure EditorRow where
  idx : Nat
  raw : List Char
  render : List Char
  highlight : List EHighlight
  hasOpenComment : Bool
deriving DecidableEq, Repr

/-- The parts of `editorConfig` the modelled operations touch. -/
structure EditorState where
  rows : List EditorRow
  cx : Nat
  cy : Nat
deriving DecidableEq, Repr

/-- `editorUpdateSyntax(&e.row[p])` including its recursive cross-row
propagation: with no profile only the tag array is resized (the source
returns before touching `hasOpenComment`); with a profile the row is
rescanned using the previous row's flag (by `row.idx`), and if the row's
own flag changed and a next row exists, that row is updated recursively.
`fuel` bounds the recursion depth; `rows.length` is always enough because
the cascade walks strictly forward. -/
def editorUpdateSyntaxAt (syn : Option EditorSyntax) :
    Nat → List EditorRow → Nat → List EditorRow
  | 0, rows, _ => rows
  | fuel + 1, rows, p =>
    match rows[p]? with
    | none => rows
    | some row =>
      match syn with
      | none => rows.set p { row with highlight := resizeHl row.highlight row.render.length }
      | some s =>
        let inC0 := decide (0 < row.idx) &&
          ((rows[row.idx - 1]?).map EditorRow.hasOpenComment).getD false
        let res := editorUpdateSyntaxRow s row.render row.highlight inC0
        let rows1 := rows.set p { row with highlight := res.1, hasOpenComment := res.2 }
        if (res.2 != row.hasOpenComment) && decide (row.idx + 1 < rows.length) then
          editorUpdateSyntaxAt syn fuel rows1 (row.idx + 1)
        else
          rows1

/-- Tab expansion of `editorUpdateRow`: each tab becomes spaces up to the
next multiple of `tabStop`, every other character is copied. -/
def renderOfAux : List Char → Nat → List Char
  | [], _ => []
  | ch :: rest, idx =>
    if ch = '\t' then
      List.replicate (tabStop - idx % tabStop) ' ' ++
        renderOfAux rest (idx + (tabStop - idx % tabStop))
    else
      ch :: renderOfAux rest (idx + 1)

/-- The rendered text computed from raw text by `editorUpdateRow`. -/
def renderOf (raw : List Char) : List Char := renderOfAux raw 0

/-- `editorUpdateRow(&e.row[p])`: recompute the rendered text from raw,
then run `editorUpdateSyntax` on the row. -/
def editorUpdateRowAt (syn : Option EditorSyntax) (rows : List EditorRow) (p : Nat) :
    List EditorRow :=
  match rows[p]? with
  | none => rows
  | some row =>
    editorUpdateSyntaxAt syn rows.length
      (rows.set p { row with render := renderOf row.raw }) p

/-- `slices.Insert(l, at, x)` for the in-bounds case `at ≤ l.length`. -/
def listInsertAt : List α → Nat → α → List α
  | l, 0, x => x :: l
  | [], _ + 1, x => [x]
  | h :: t, n + 1, x => h :: listInsertAt t n x

/-- Renumbering after insertion: `idx` of every row at position `≥ p`
is incremented. -/
def renumberInc (rows : List EditorRow) (p : Nat) : List EditorRow :=
  rows.mapIdx fun j r => if p ≤ j then { r with idx := r.idx + 1 } else r

/-- Renumbering after deletion: `idx` of every row at position `≥ p`
is decremented. -/
def renumberDec (rows : List EditorRow) (p : Nat) : List EditorRow :=
  rows.mapIdx fun j r => if p ≤ j then { r with idx := r.idx - 1 } else r

/-- `editorInsertRow(at, line)`: insert a fresh row (zero-valued render,
tags and flag), renumber the rows after it, then update the new row. -/
def editorInsertRowDoc (syn : Option EditorSyntax) (rows : List EditorRow)
    (at_ : Nat) (line : List Char) : List EditorRow :=
  editorUpdateRowAt syn
    (renumberInc (listInsertAt rows at_
      { idx := at_, raw := line, render := [], highlight := [], hasOpenComment := false })
      (at_ + 1))
    at_

/-- `editorDelRow(at)`: no-op when `at` is out of bounds, otherwise remove
the row and renumber the rows after it.  No re-highlighting happens here. -/
def editorDelRowDoc (rows : List EditorRow) (at_ : Int) : List EditorRow :=
  if at_ < 0 ∨ (rows.length : Int) ≤ at_ then rows
  else renumberDec (rows.eraseIdx at_.toNat) at_.toNat

/-- `editorRowInsertChar(&e.row[p], at, c)`: clamp `at` to the end of the
raw text when out of range, splice the character in, then update the row. -/
def editorRowInsertCharDoc (syn : Option EditorSyntax) (rows : List EditorRow)
    (p : Nat) (at_ : Int) (c : Char) : List EditorRow :=
  match rows[p]? with
  | none => rows
  | some row =>
    let a := if at_ < 0 ∨ (row.raw.length : Int) < at_ then row.raw.length else at_.toNat
    editorUpdateRowAt syn
      (rows.set p { row with raw := row.raw.take a ++ c :: row.raw.drop a }) p

/-- `editorRowAppendString(&e.row[p], s)`. -/
def editorRowAppendStringDoc (syn : Option EditorSyntax) (rows : List EditorRow)
    (p : Nat) (s : List Char) : List EditorRow :=
  match rows[p]? with
  | none => rows
  | some row => editorUpdateRowAt syn (rows.set p { row with raw := row.raw ++ s }) p

/-- `editorRowDelChar(&e.row[p], at)`: no-op when `at` is out of range,
otherwise remove the byte and update the row. -/
def editorRowDelCharDoc (syn : Option EditorSyntax) (rows : List EditorRow)
    (p : Nat) (at_ : Int) : List EditorRow :=
  match rows[p]? with
  | none => rows
  | some row =>
    if at_ < 0 ∨ (row.raw.length : Int) ≤ at_ then rows
    else
      editorUpdateRowAt syn
        (rows.set p { row with raw := row.raw.take at_.toNat ++ row.raw.drop (at_.toNat + 1) }) p

/-- `editorInsertChar(c)`: append a fresh empty row when the cursor sits on
the virtual line past the last row, then insert at the cursor column. -/
def editorInsertCharDoc (syn : Option EditorSyntax) (st : EditorState) (c : Char) :
    EditorState :=
  let rows0 := if st.cy = st.rows.length
    then editorInsertRowDoc syn st.rows st.rows.length []
    else st.rows
  { rows := editorRowInsertCharDoc syn rows0 st.cy (st.cx : Int) c,
    cx := st.cx + 1, cy := st.cy }

/-- `editorInsertNewline()`: at column zero insert an empty row above,
otherwise split the current row at the cursor. -/
def editorInsertNewlineDoc (syn : Option EditorSyntax) (st : EditorState) : EditorState :=
  if st.cx = 0 then
    { rows := editorInsertRowDoc syn st.rows st.cy [], cx := 0, cy := st.cy + 1 }
  else
    match st.rows[st.cy]? with
    | none => st
    | some row =>
      let rows1 := editorInsertRowDoc syn st.rows (st.cy + 1) (row.raw.drop st.cx)
      let rows2 :=
        match rows1[st.cy]? with
        | none => rows1
        | some r2 =>
          editorUpdateRowAt syn (rows1.set st.cy { r2 with raw := r2.raw.take st.cx }) st.cy
      { rows := rows2, cx := 0, cy := st.cy + 1 }

/-- `editorDelChar()`: backspace.  At column zero (and not on row zero) the
current row's text is appended to the previous row and the current row is
deleted — the merge path of the source. -/
def editorDelCharDoc (syn : Option EditorSyntax) (st : EditorState) : EditorState :=
  if st.cy = st.rows.length ∨ (st.cx = 0 ∧ st.cy = 0) then st
  else
    match st.rows[st.cy]? with
    | none => st
    | some row =>
      if 0 < st.cx then
        { rows := editorRowDelCharDoc syn st.rows st.cy ((st.cx : Int) - 1),
          cx := st.cx - 1, cy := st.cy }
      else
        let newCx := ((st.rows[st.cy - 1]?).map fun r => r.raw.length).getD 0
        let rows1 := editorRowAppendStringDoc syn st.rows (st.cy - 1) row.raw
        let rows2 := editorDelRowDoc rows1 (st.cy : Int)
        { rows := rows2, cx := newCx, cy := st.cy - 1 }

/-- `editorRowCxToRx` accumulator: walk the first `cx` raw characters,
expanding each tab to the next multiple of `tabStop`. -/
def cxToRxAux : List Char → Nat → Nat
  | [], rx => rx
  | ch :: rest, rx =>
    if ch = '\t' then cxToRxAux rest (rx + (tabStop - 1 - rx % tabStop) + 1)
    else cxToRxAux rest (rx + 1)

/-- `editorRowCxToRx(row, cx)`: the render column of raw column `cx`. -/
def editorRowCxToRx (raw : List Char) (cx : Nat) : Nat :=
  cxToRxAux (raw.take cx) 0

/-- `editorRowRxToCx` loop: returns the first raw index whose running
render column exceeds `rx`, or the raw length. -/
def rxToCxAux (rx : Nat) : List Char → Nat → Nat → Nat
  | [], cx, _ => cx
  | ch :: rest, cx, curRx =>
    if rx < (if ch = '\t' then curRx + (tabStop - 1 - curRx % tabStop) + 1 else curRx + 1)
    then cx
    else rxToCxAux rx rest (cx + 1)
      (if ch = '\t' then curRx + (tabStop - 1 - curRx % tabStop) + 1 else curRx + 1)

/-- `editorRowRxToCx(row, rx)`. -/
def editorRowRxToCx (raw : List Char) (rx : Nat) : Nat :=
  rxToCxAux rx raw 0 0

/-- The row-stepping loop of `editorFindCallback`: starting from the
anchor (`-1` for none), step one row per iteration in the current
direction, wrapping at both ends, for at most `rows.length` iterations;
return the first row position whose rendered text contains the query. -/
def searchLoop (rows : List EditorRow) (query : List Char) (fwd : Bool) :
    Nat → Int → Option Nat
  | 0, _ => none
  | n + 1, cur =>
    let cur1 : Int := if fwd then cur + 1 else cur - 1
    let cur2 : Int :=
      if cur1 = -1 then (rows.length : Int) - 1
      else if cur1 = (rows.length : Int) then 0
      else cur1
    match rows[cur2.toNat]? with
    | none => none
    | some row =>
      if subOf query row.render then some cur2.toNat
      else searchLoop rows query fwd n cur2

/-- One search step of `editorFindCallback` (lines 239–267): the loop over
at most `len(e.row)` rows from `lastMatchLine`. -/
def editorFindStep (rows : List EditorRow) (lastMatchLine : Int) (fwd : Bool)
    (query : List Char) : Option Nat :=
  searchLoop rows query fwd rows.length lastMatchLine

/-- Key constants of the source (`arrowUp = '↑'` and so on). -/
def arrowUp : Char := '↑'

/-- Source constant `arrowDown`. -/
def arrowDown : Char := '↓'

/-- Source constant `arrowLeft`. -/
def arrowLeft : Char := '←'

/-- Source constant `arrowRight`. -/
def arrowRight : Char := '→'

/-- Source constant `pageUp`. -/
def pageUp : Char := '↟'

/-- Source constant `pageDown`. -/
def pageDown : Char := '↡'

/-- Source constant `home`. -/
def home : Char := '↞'

/-- Source constant `end` (renamed: `end` is reserved in Lean). -/
def endKey : Char := '↠'

/-- Source constant `delete`. -/
def deleteKey : Char := '⌫'

/-- A single `os.Stdin.Read` result: `some b` is one byte, `none` is a
timeout / EOF / error on that read. -/
abbrev ReadResult := Option Nat

/-- One non-first read of `editorReadKey`: any failure (including timeout)
makes the decoder return a bare escape. -/
def readOne : List ReadResult → ReadResult × List ReadResult
  | [] => (none, [])
  | r :: rest => (r, rest)

/-- The escape-sequence tail of `editorReadKey`, after the introducer byte
`0x1b` was read.  Never an error: every path yields a key. -/
def decodeEsc (input : List ReadResult) : Char :=
  match readOne input with
  | (none, _) => '\x1b'
  | (some s0, r1) =>
    match readOne r1 with
    | (none, _) => '\x1b'
    | (some s1, r2) =>
      if s0 = 91 then
        if 48 ≤ s1 ∧ s1 ≤ 57 then
          match readOne r2 with
          | (none, _) => '\x1b'
          | (some s2, _) =>
            if s2 = 126 then
              if s1 = 49 ∨ s1 = 55 then home
              else if s1 = 52 ∨ s1 = 56 then endKey
              else if s1 = 51 then deleteKey
              else if s1 = 53 then pageUp
              else if s1 = 54 then pageDown
              else '\x1b'
            else '\x1b'
        else
          if s1 = 65 then arrowUp
          else if s1 = 66 then arrowDown
          else if s1 = 67 then arrowRight
          else if s1 = 68 then arrowLeft
          else if s1 = 72 then home
          else if s1 = 70 then endKey
          else '\x1b'
      else if s0 = 79 then
        if s1 = 72 then home
        else if s1 = 70 then endKey
        else '\x1b'
      else '\x1b'

/-- `editorReadKey()`: the first read retries on timeout (the source
`continue`s on `io.EOF`); a non-escape byte is returned as is; the escape
introducer `0x1b` hands over to the escape decoder.  `none` models the
source blocking forever on an exhausted byte source. -/
def editorReadKey : List ReadResult → Option Char
  | [] => none
  | none :: rest => editorReadKey rest
  | some b :: rest =>
    if b ≠ 27 then some (Char.ofNat b)
    else some (decodeEsc rest)

/-- The raw length of the current row as `editorMoveCursor` sees it
(`row` is the empty string when the cursor sits past the last row). -/
def rowLenAt (rows : List EditorRow) (cy : Nat) : Nat :=
  if cy < rows.length then ((rows[cy]?).map fun r => r.raw.length).getD 0 else 0

/-- The `switch key` of `editorMoveCursor`: the four arrow movements. -/
def editorMoveCursorSwitch (rows : List EditorRow) (cx cy : Nat) (key : Char) : Nat × Nat :=
  if key = arrowUp then
    if cy ≠ 0 then (cx, cy - 1) else (cx, cy)
  else if key = arrowLeft then
    if cx ≠ 0 then (cx - 1, cy)
    else if 0 < cy then (((rows[cy - 1]?).map fun r => r.raw.length).getD 0, cy - 1)
    else (cx, cy)
  else if key = arrowDown then
    if cy < rows.length then (cx, cy + 1) else (cx, cy)
  else if key = arrowRight then
    if cx < rowLenAt rows cy then (cx + 1, cy)
    else if cy < rows.length ∧ cx = rowLenAt rows cy then (0, cy + 1)
    else (cx, cy)
  else (cx, cy)

/-- `editorMoveCursor(key)`: the arrow movement followed by the
end-of-line clamp (`e.cx = min(e.cx, len(row))`, or `0` past the last
row). -/
def editorMoveCursor (rows : List EditorRow) (cx cy : Nat) (key : Char) : Nat × Nat :=
  if (editorMoveCursorSwitch rows cx cy key).2 < rows.length then
    (min (editorMoveCursorSwitch rows cx cy key).1
      (((rows[(editorMoveCursorSwitch rows cx cy key).2]?).map fun r => r.raw.length).getD 0),
      (editorMoveCursorSwitch rows cx cy key).2)
  else
    (0, (editorMoveCursorSwitch rows cx cy key).2)

/-- `strings.Lines`: the newline-terminated chunks of a text, each chunk
keeping its newline; a final chunk without a newline is kept, an empty
text yields no chunks.  `acc` holds the current chunk reversed. -/
def goLinesAux : List Char → List Char → List (List Char)
  | [], acc => if acc = [] then [] else [acc.reverse]
  | c :: rest, acc =>
    if c = '\n' then (acc.reverse ++ ['\n']) :: goLinesAux rest []
    else goLinesAux rest (c :: acc)

/-- `strings.Lines(text)` as a list of chunks. -/
def goLines (text : List Char) : List (List Char) := goLinesAux text []

/-- `strings.TrimSuffix(line, "\n")`. -/
def trimSuffixNl (l : List Char) : List Char :=
  if l.getLast? = some '\n' then l.dropLast else l

/-- `editorRowsToString()`: every row's raw content followed by one
newline, in row order. -/
def editorRowsToString (rows : List EditorRow) : List Char :=
  rows.foldr (fun r acc => r.raw ++ '\n' :: acc) []

/-- The row-building part of `editorOpen`: each line of the text, newline
stripped, is appended as a row via `editorInsertRow(len(e.row), line)`. -/
def openDocRows (syn : Option EditorSyntax) (text : List Char) : List EditorRow :=
  (goLines text).foldl
    (fun rows line => editorInsertRowDoc syn rows rows.length (trimSuffixNl line)) []

/-- The reference open-comment chain: scan each row from the top with the
engine itself, threading the flag; row `r`'s entry is "is end-of-row `r`
inside an unterminated block comment given rows `0..r`". -/
def scanRowFlags (syn : EditorSyntax) : Bool → List EditorRow → List Bool
  | _, [] => []
  | inC, r :: rest =>
    (editorUpdateSyntaxRow syn r.render r.highlight inC).2 ::
      scanRowFlags syn (editorUpdateSyntaxRow syn r.render r.highlight inC).2 rest

/-- The stored open-comment flags agree with the reference chain. -/
def flagsOK (syn : EditorSyntax) (rows : List EditorRow) : Bool :=
  rows.map EditorRow.hasOpenComment == scanRowFlags syn false rows

/-- A three-row document: a line comment, a block-comment opener, and a
row inside the block comment — built by the editor itself from the bytes
`"//\n/*\nx\n"` under the Go profile. -/
def c2Doc : List EditorRow := openDocRows (some goSyntax) ("//\n/*\nx\n".toList)

/-- Rows for the search example of the spec. -/
def mkPlainRow (i : Nat) (s : String) : EditorRow :=
  { idx := i, raw := s.toList, render := s.toList,
    highlight := List.replicate s.length EHighlight.normal, hasOpenComment := false }

/-- The `["abc","def","abc"]` document of the search claim. -/
def c6Rows : List EditorRow := [mkPlainRow 0 "abc", mkPlainRow 1 "def", mkPlainRow 2 "abc"]

/-- C2: the claimed invariant is the intent of the highlighting engine but
the source violates it on row deletion.  In the editor-built document
`["//", "/*", "x"]` (Go profile, all flags consistent), a backspace-merge
at row 1 column 0 appends `"/*"` to row 0 — whose line comment swallows it,
so row 0's flag stays `false` and no cascade runs — and then deletes row 1
without re-highlighting its successor.  The surviving row `"x"` keeps
`hasOpenComment := true` and its block-comment tag, while the engine's own
chain recomputed from the top gives `[false, false]` and a normal tag. -/
theorem c2_delrow_stale_flag :
    flagsOK goSyntax c2Doc = true ∧
    (editorDelCharDoc (some goSyntax) { rows := c2Doc, cx := 0, cy := 1 }).rows.map
        EditorRow.raw = [['/', '/', '/', '*'], ['x']] ∧
    (editorDelCharDoc (some goSyntax) { rows := c2Doc, cx := 0, cy := 1 }).rows.map
        EditorRow.hasOpenComment = [false, true] ∧
    scanRowFlags goSyntax false
        (editorDelCharDoc (some goSyntax) { rows := c2Doc, cx := 0, cy := 1 }).rows
      = [false, false] ∧
    ((editorDelCharDoc (some goSyntax) { rows := c2Doc, cx := 0, cy := 1 }).rows[1]?).map
        EditorRow.highlight = some [EHighlight.multiComment] ∧
    flagsOK goSyntax
        (editorDelCharDoc (some goSyntax) { rows := c2Doc, cx := 0, cy := 1 }).rows = false := by
  refine ⟨by decide, by decide, by decide, by decide, by decide, by decide⟩

/-- C3, counterexample: on the single-tab row, render columns produced by
raw boundaries are `0` and `8`; composing the maps at `rx = 3` gives `0`,
which is not the smallest produced render column `≥ 3` (that is `8`). -/
theorem c3_composition_counterexample :
    editorRowRxToCx ['\t'] 3 = 0 ∧
    editorRowCxToRx ['\t'] (editorRowRxToCx ['\t'] 3) = 0 ∧
    editorRowCxToRx ['\t'] 1 = 8 ∧
    ¬ (3 ≤ editorRowCxToRx ['\t'] (editorRowRxToCx ['\t'] 3)) := by
  refine ⟨by decide, by decide, by decide, by decide⟩

/-- C4, counterexample: with no profile selected, `editorUpdateSyntax` only
resizes the tag array and returns, so a row that carried a non-normal tag
under an earlier profile keeps it instead of becoming all normal. -/
theorem c4_no_profile_counterexample :
    ((editorUpdateSyntaxAt none 1
        [{ idx := 0, raw := ['x'], render := ['x'],
           highlight := [EHighlight.keyword1], hasOpenComment := false }] 0)[0]?).map
      EditorRow.highlight = some [EHighlight.keyword1] ∧
    EHighlight.keyword1 ≠ EHighlight.normal := by
  refine ⟨by decide, by decide⟩

/-- C8, counterexample: a row whose raw content contains a newline (the
editor inserts one on Ctrl-J) does not survive the save/load round trip:
one row `"a\nb"` saves to `"a\nb\n"`, which loads as two rows. -/
theorem c8_roundtrip_counterexample :
    editorRowsToString [{ idx := 0, raw := ['a', '\n', 'b'], render := [],
                          highlight := [], hasOpenComment := false }]
      = ['a', '\n', 'b', '\n'] ∧
    (openDocRows none (editorRowsToString
        [{ idx := 0, raw := ['a', '\n', 'b'], render := [],
           highlight := [], hasOpenComment := false }])).map EditorRow.raw
      = [['a'], ['b']] := by
  refine ⟨by decide, by decide⟩

/-- C7: the decoder maps `ESC [ A` to arrow-up and `ESC [ 3 ~` to delete;
an introducer whose follow-up reads fail (timeout or exhausted source)
yields the bare escape; and after an introducer every byte source decodes
to some key, never to an error. -/
theorem c7_escape_decode :
    editorReadKey [some 27, some 91, some 65] = some arrowUp ∧
    editorReadKey [some 27, some 91, some 51, some 126] = some deleteKey ∧
    editorReadKey [some 27] = some '\x1b' ∧
    editorReadKey [some 27, none] = some '\x1b' ∧
    ∀ rest : List ReadResult, (editorReadKey (some 27 :: rest)).isSome = true := by
  refine ⟨by decide, by decide, by decide, by decide, fun rest => rfl⟩

/-- Modelled from the spec for comparison with the search loop: starting
from the anchor row (or row 0 if none), examine one row at a time going
forward, wrapping past the last row to row 0, for at most one full pass,
and return the first row whose rendered text contains the query. -/
def specSearchGo (rows : List EditorRow) (q : List Char) : Nat → Nat → Option Nat
  | 0, _ => none
  | k + 1, p =>
    if subOf q (((rows[p % rows.length]?).map EditorRow.render).getD []) then
      some (p % rows.length)
    else specSearchGo rows q k (p % rows.length + 1)

/-- Modelled from the spec: the first match of a forward search pass. -/
def specFirstMatch (rows : List EditorRow) (anchor : Int) (q : List Char) : Option Nat :=
  specSearchGo rows q rows.length (if anchor < 0 then 0 else anchor.toNat + 1)

theorem searchLoop_eq_spec (rows : List EditorRow) (q : List Char) :
    ∀ (k : Nat) (cur : Int), 0 < rows.length → -1 ≤ cur → cur < (rows.length : Int) →
      searchLoop rows q true k cur = specSearchGo rows q k ((cur + 1).toNat) := by
  intro k
  induction k with
  | zero => intro cur _ _ _; rfl
  | succ n ih =>
    intro cur hn hlo hhi
    rw [searchLoop, specSearchGo]
    have h1 : ¬ ((if (true : Bool) then cur + 1 else cur - 1) = -1) := by
      simp only [if_pos]; omega
    have hcur2 :
        (if (if (true : Bool) then cur + 1 else cur - 1) = -1 then (rows.length : Int) - 1
         else if (if (true : Bool) then cur + 1 else cur - 1) = (rows.length : Int) then 0
         else (if (true : Bool) then cur + 1 else cur - 1))
        = (((cur + 1).toNat % rows.length : Nat) : Int) := by
      simp only [if_pos]
      rcases eq_or_ne (cur + 1) (rows.length : Int) with he | hne
      · rw [if_neg (by omega), if_pos he]
        have : (cur + 1).toNat = rows.length := by omega
        rw [this, Nat.mod_self]
        rfl
      · rw [if_neg (by omega), if_neg hne]
        have hlt : (cur + 1).toNat < rows.length := by omega
        rw [Nat.mod_eq_of_lt hlt]
        omega
    rw [hcur2]
    have htn : ((((cur + 1).toNat % rows.length : Nat) : Int)).toNat
        = (cur + 1).toNat % rows.length := by omega
    rw [htn]
    have hidx : (cur + 1).toNat % rows.length < rows.length := Nat.mod_lt _ hn
    rcases List.getElem?_eq_some.mpr ⟨hidx, rfl⟩ with hsome
    rw [hsome]
    simp only [Option.map_some, Option.getD_some]
    rcases hb : subOf q (rows[(cur + 1).toNat % rows.length]).render with _ | _
    · rw [if_neg (by simp [hb]), if_neg (by simp [hb])]
      have hcast : ((((cur + 1).toNat % rows.length : Nat) : Int)) < (rows.length : Int) := by
        exact_mod_cast hidx
      rw [ih (((cur + 1).toNat % rows.length : Nat) : Int) hn (by omega) hcast]
      have harg : ((((cur + 1).toNat % rows.length : Nat) : Int) + 1).toNat
          = (cur + 1).toNat % rows.length + 1 := by omega
      rw [harg]
    · rw [if_pos (by simp [hb]), if_pos (by simp [hb])]

/-- C6: the forward search loop performs exactly the spec's wraparound
pass (first conjunct, for any in-range anchor including "none" = `-1`),
and on the document `["abc","def","abc"]` with query `"abc"` repeated
forward search matches row 0, then row 2, then wraps to row 0 again. -/
theorem c6_search_wraparound :
    (∀ (rows : List EditorRow) (q : List Char) (a : Int),
      -1 ≤ a → a < (rows.length : Int) →
      editorFindStep rows a true q = specFirstMatch rows a q) ∧
    editorFindStep c6Rows (-1) true ("abc".toList) = some 0 ∧
    editorFindStep c6Rows 0 true ("abc".toList) = some 2 ∧
    editorFindStep c6Rows 2 true ("abc".toList) = some 0 := by
  refine ⟨?_, by decide, by decide, by decide⟩
  intro rows q a hlo hhi
  rcases Nat.eq_zero_or_pos rows.length with h0 | hpos
  · rw [editorFindStep, specFirstMatch, h0]
    rfl
  · rw [editorFindStep, specFirstMatch, searchLoop_eq_spec rows q rows.length a hpos hlo hhi]
    congr 1
    rcases lt_or_le a 0 with ha | ha
    · rw [if_pos ha]
      omega
    · rw [if_neg (by omega)]
      omega

/-- C6 witness: the general equality applied at a concrete document and
anchor, with the result evaluated. -/
theorem c6_search_wraparound_witness :
    editorFindStep c6Rows 0 true ("d".toList) = specFirstMatch c6Rows 0 ("d".toList) ∧
    editorFindStep c6Rows 0 true ("d".toList) = some 1 := by
  refine ⟨c6_search_wraparound.1 c6Rows ("d".toList) 0 (by decide) (by decide), by decide⟩

theorem map_raw_set (rows : List EditorRow) (p : Nat) (row row' : EditorRow)
    (hp : rows[p]? = some row) (h : row'.raw = row.raw) :
    (rows.set p row').map EditorRow.raw = rows.map EditorRow.raw := by
  apply List.ext_getElem?
  intro n
  simp only [List.getElem?_map, List.getElem?_set]
  rcases eq_or_ne p n with rfl | hne
  · rw [if_pos rfl, if_pos (List.getElem?_eq_some.mp hp).1, hp]
    simp [h]
  · rw [if_neg hne]

theorem editorUpdateSyntaxAt_map_raw (syn : Option EditorSyntax) :
    ∀ (fuel : Nat) (rows : List EditorRow) (p : Nat),
      (editorUpdateSyntaxAt syn fuel rows p).map EditorRow.raw = rows.map EditorRow.raw := by
  intro fuel
  induction fuel with
  | zero => intro rows p; rfl
  | succ n ih =>
    intro rows p
    rw [editorUpdateSyntaxAt]
    rcases hp : rows[p]? with _ | row
    · rfl
    · rcases syn with _ | s
      · exact map_raw_set rows p row _ hp rfl
      · simp only []
        split
        · rw [ih]
          exact map_raw_set rows p row _ hp rfl
        · exact map_raw_set rows p row _ hp rfl

theorem editorUpdateRowAt_map_raw (syn : Option EditorSyntax) (rows : List EditorRow)
    (p : Nat) :
    (editorUpdateRowAt syn rows p).map EditorRow.raw = rows.map EditorRow.raw := by
  rw [editorUpdateRowAt]
  rcases hp : rows[p]? with _ | row
  · rfl
  · rw [editorUpdateSyntaxAt_map_raw]
    exact map_raw_set rows p row _ hp rfl

/-- C9: out-of-range structural indices are never errors.  An insert
column outside the raw text clamps to end of line (the new raw text is the
old one with the character appended); an out-of-range delete column leaves
the document unchanged; an out-of-range row deletion leaves the document
unchanged. -/
theorem c9_out_of_range_clamps :
    (∀ (syn : Option EditorSyntax) (rows : List EditorRow) (p : Nat) (row : EditorRow)
        (at_ : Int) (c : Char),
      rows[p]? = some row → (at_ < 0 ∨ (row.raw.length : Int) < at_) →
      ((editorRowInsertCharDoc syn rows p at_ c)[p]?).map EditorRow.raw
        = some (row.raw ++ [c])) ∧
    (∀ (syn : Option EditorSyntax) (rows : List EditorRow) (p : Nat) (row : EditorRow)
        (at_ : Int),
      rows[p]? = some row → (at_ < 0 ∨ (row.raw.length : Int) ≤ at_) →
      editorRowDelCharDoc syn rows p at_ = rows) ∧
    (∀ (rows : List EditorRow) (at_ : Int),
      (at_ < 0 ∨ (rows.length : Int) ≤ at_) → editorDelRowDoc rows at_ = rows) := by
  refine ⟨?_, ?_, ?_⟩
  · intro syn rows p row at_ c hp hout
    rw [editorRowInsertCharDoc, hp]
    simp only [if_pos hout]
    have hmap := editorUpdateRowAt_map_raw syn
      (rows.set p { row with raw := row.raw.take row.raw.length ++ c :: row.raw.drop row.raw.length }) p
    have hgoal : ∀ l : List EditorRow,
        l.map EditorRow.raw
          = (rows.set p { row with raw := row.raw.take row.raw.length ++ c :: row.raw.drop row.raw.length }).map
              EditorRow.raw →
        (l[p]?).map EditorRow.raw = some (row.raw ++ [c]) := by
      intro l hl
      have : (l.map EditorRow.raw)[p]? = some (row.raw ++ [c]) := by
        rw [hl]
        rw [List.map_set]
        rw [List.getElem?_set_self]
        · simp [List.take_length, List.drop_length]
        · rw [List.length_map]
          exact (List.getElem?_eq_some.mp hp).1
      rw [List.getElem?_map] at this
      exact this
    exact hgoal _ hmap
  · intro syn rows p row at_ hp hout
    rw [editorRowDelCharDoc, hp]
    simp only [if_pos hout]
  · intro rows at_ hout
    rw [editorDelRowDoc, if_pos hout]

/-- C9 witness: the three clamps evaluated on a concrete one-row document
(insert at column 5 of `"a"` appends, delete at column 5 is a no-op, row
deletion at index 3 is a no-op). -/
theorem c9_out_of_range_clamps_witness :
    ((editorRowInsertCharDoc none [mkPlainRow 0 "a"] 0 5 'b')[0]?).map EditorRow.raw
      = some ['a', 'b'] ∧
    editorRowDelCharDoc none [mkPlainRow 0 "a"] 0 5 = [mkPlainRow 0 "a"] ∧
    editorDelRowDoc [mkPlainRow 0 "a"] 3 = [mkPlainRow 0 "a"] := by
  refine ⟨c9_out_of_range_clamps.1 none [mkPlainRow 0 "a"] 0 (mkPlainRow 0 "a") 5 'b'
      (by decide) (by decide),
    c9_out_of_range_clamps.2.1 none [mkPlainRow 0 "a"] 0 (mkPlainRow 0 "a") 5
      (by decide) (by decide),
    c9_out_of_range_clamps.2.2 [mkPlainRow 0 "a"] 3 (by decide)⟩

theorem editorMoveCursorSwitch_cy_le (rows : List EditorRow) (cx cy : Nat) (key : Char)
    (h : cy ≤ rows.length) :
    (editorMoveCursorSwitch rows cx cy key).2 ≤ rows.length := by
  rw [editorMoveCursorSwitch]
  split_ifs <;> simp <;> omega

/-- C10: after a cursor move (any key, in particular each arrow key,
including the final shorter-line clamp) the cursor row stays within
`0 .. number of rows`, the column never exceeds the current row's raw
length, and on the virtual line past the last row the column is `0`. -/
theorem c10_cursor_bounds (rows : List EditorRow) (cx cy : Nat) (key : Char)
    (h : cy ≤ rows.length) :
    (editorMoveCursor rows cx cy key).2 ≤ rows.length ∧
    ((editorMoveCursor rows cx cy key).2 < rows.length →
      (editorMoveCursor rows cx cy key).1
        ≤ (((rows[(editorMoveCursor rows cx cy key).2]?).map fun r => r.raw.length).getD 0)) ∧
    ((editorMoveCursor rows cx cy key).2 = rows.length →
      (editorMoveCursor rows cx cy key).1 = 0) := by
  have hsw := editorMoveCursorSwitch_cy_le rows cx cy key h
  rw [editorMoveCursor]
  by_cases hm : (editorMoveCursorSwitch rows cx cy key).2 < rows.length
  · rw [if_pos hm]
    exact ⟨Nat.le_of_lt hm, fun _ => Nat.min_le_right _ _, fun he => absurd he (by omega)⟩
  · rw [if_neg hm]
    exact ⟨hsw, fun hlt => absurd hlt hm, fun _ => rfl⟩

/-- C10 witness: moving down from row 0 of a two-row document lands on row
1 within bounds (the second row is shorter, so the clamp bites). -/
theorem c10_cursor_bounds_witness :
    (editorMoveCursor [mkPlainRow 0 "abc", mkPlainRow 1 "a"] 3 0 arrowDown).2 ≤ 2 ∧
    (editorMoveCursor [mkPlainRow 0 "abc", mkPlainRow 1 "a"] 3 0 arrowDown) = (1, 1) := by
  refine ⟨(c10_cursor_bounds [mkPlainRow 0 "abc", mkPlainRow 1 "a"] 3 0 arrowDown
      (by decide)).1, by decide⟩

theorem cxToRxAux_le_self : ∀ (l : List Char) (r : Nat), r ≤ cxToRxAux l r := by
  intro l
  induction l with
  | nil => intro r; exact le_refl r
  | cons ch t ih =>
    intro r
    rw [cxToRxAux]
    split_ifs with htab
    · exact le_trans (by omega) (ih _)
    · exact le_trans (by omega) (ih _)

theorem cxToRxAux_cons (ch : Char) (t : List Char) (r : Nat) :
    cxToRxAux (ch :: t) r
      = cxToRxAux t (if ch = '\t' then r + (tabStop - 1 - r % tabStop) + 1 else r + 1) := by
  rw [cxToRxAux]
  split_ifs <;> rfl

theorem rxToCxAux_cons (rx : Nat) (ch : Char) (t : List Char) (cx r : Nat) :
    rxToCxAux rx (ch :: t) cx r
      = if rx < (if ch = '\t' then r + (tabStop - 1 - r % tabStop) + 1 else r + 1) then cx
        else rxToCxAux rx t (cx + 1)
          (if ch = '\t' then r + (tabStop - 1 - r % tabStop) + 1 else r + 1) := rfl

theorem stepRx_ge (ch : Char) (r : Nat) :
    r + 1 ≤ (if ch = '\t' then r + (tabStop - 1 - r % tabStop) + 1 else r + 1) := by
  split_ifs <;> omega

theorem rxToCxAux_shift (rx : Nat) :
    ∀ (l : List Char) (cx r : Nat), rxToCxAux rx l cx r = cx + rxToCxAux rx l 0 r := by
  intro l
  induction l with
  | nil => intro cx r; rfl
  | cons ch t ih =>
    intro cx r
    rw [rxToCxAux_cons, rxToCxAux_cons]
    split_ifs
    all_goals first
    | omega
    | (rw [ih (cx + 1), ih (0 + 1)]; omega)

theorem rxToCx_spec (rx : Nat) :
    ∀ (l : List Char) (r0 : Nat), r0 ≤ rx →
      rxToCxAux rx l 0 r0 ≤ l.length ∧
      cxToRxAux (l.take (rxToCxAux rx l 0 r0)) r0 ≤ rx ∧
      (∀ c', c' ≤ l.length → cxToRxAux (l.take c') r0 ≤ rx →
          cxToRxAux (l.take c') r0 ≤ cxToRxAux (l.take (rxToCxAux rx l 0 r0)) r0) := by
  intro l
  induction l with
  | nil =>
    intro r0 h0
    refine ⟨le_refl 0, h0, ?_⟩
    intro c' hc' _
    have hz : c' = 0 := Nat.le_zero.mp hc'
    subst hz
    exact le_refl _
  | cons ch t ih =>
    intro r0 h0
    have hge := stepRx_ge ch r0
    rw [rxToCxAux_cons]
    have hconsTake : ∀ c'' : Nat,
        cxToRxAux ((ch :: t).take (c'' + 1)) r0
          = cxToRxAux (t.take c'')
              (if ch = '\t' then r0 + (tabStop - 1 - r0 % tabStop) + 1 else r0 + 1) := by
      intro c''
      rw [List.take_succ_cons, cxToRxAux_cons]
    revert hge hconsTake
    generalize (if ch = '\t' then r0 + (tabStop - 1 - r0 % tabStop) + 1 else r0 + 1) = r1
    intro hge hconsTake
    by_cases hlt : rx < r1
    · rw [if_pos hlt]
      refine ⟨Nat.zero_le _, h0, ?_⟩
      intro c' _ hle
      match c' with
      | 0 => exact le_refl _
      | c'' + 1 =>
        exfalso
        rw [hconsTake] at hle
        have := cxToRxAux_le_self (t.take c'') r1
        omega
    · rw [if_neg hlt]
      have hr1 : r1 ≤ rx := by omega
      rcases ih r1 hr1 with ⟨ih1, ih2, ih3⟩
      rw [rxToCxAux_shift rx t (0 + 1) r1]
      refine ⟨by simp; omega, ?_, ?_⟩
      · rw [Nat.add_comm (0 + 1) _]
        have h01 : rxToCxAux rx t 0 r1 + (0 + 1) = rxToCxAux rx t 0 r1 + 1 := by omega
        rw [h01, hconsTake]
        exact ih2
      · intro c' hc' hle
        have h01 : 0 + 1 + rxToCxAux rx t 0 r1 = rxToCxAux rx t 0 r1 + 1 := by omega
        rw [h01, hconsTake]
        match c' with
        | 0 =>
          simp only [List.take_zero, cxToRxAux]
          have := cxToRxAux_le_self (t.take (rxToCxAux rx t 0 r1)) r1
          omega
        | c'' + 1 =>
          rw [hconsTake] at hle ⊢
          exact ih3 c'' (by simpa using hc') hle

/-- C3, amended: composing the maps gives the LARGEST render column `≤ rx`
that a raw column boundary produces — the result is produced by an
in-range boundary, is at most `rx`, and dominates every boundary-produced
render column that is at most `rx`. -/
theorem c3_composition_largest_le (raw : List Char) (rx : Nat) :
    editorRowRxToCx raw rx ≤ raw.length ∧
    editorRowCxToRx raw (editorRowRxToCx raw rx) ≤ rx ∧
    (∀ c', c' ≤ raw.length → editorRowCxToRx raw c' ≤ rx →
      editorRowCxToRx raw c' ≤ editorRowCxToRx raw (editorRowRxToCx raw rx)) := by
  rcases rxToCx_spec rx raw 0 (Nat.zero_le rx) with ⟨h1, h2, h3⟩
  exact ⟨h1, h2, h3⟩

/-- C3 witness: the amended statement applied at the row `"a<tab>"` and
`rx = 5`: the composition yields render column `1`, the largest produced
column `≤ 5` (the boundaries produce `0`, `1` and `8`). -/
theorem c3_composition_largest_le_witness :
    editorRowRxToCx ['a', '\t'] 5 ≤ 2 ∧
    editorRowCxToRx ['a', '\t'] (editorRowRxToCx ['a', '\t'] 5) = 1 ∧
    editorRowCxToRx ['a', '\t'] 1 ≤ editorRowCxToRx ['a', '\t'] (editorRowRxToCx ['a', '\t'] 5) := by
  refine ⟨(c3_composition_largest_le ['a', '\t'] 5).1, by decide,
    (c3_composition_largest_le ['a', '\t'] 5).2.2 1 (by decide) (by decide)⟩

theorem goLinesAux_line :
    ∀ (raw acc rest : List Char), '\n' ∉ raw →
      goLinesAux (raw ++ '\n' :: rest) acc
        = ((acc.reverse ++ raw) ++ ['\n']) :: goLinesAux rest [] := by
  intro raw
  induction raw with
  | nil =>
    intro acc rest _
    simp [goLinesAux]
  | cons c raw' ih =>
    intro acc rest hnl
    have hc : ¬ (c = '\n') := fun h => hnl (h ▸ List.mem_cons_self c raw')
    rw [List.cons_append, goLinesAux, if_neg hc, ih (c :: acc) rest (fun h => hnl (List.mem_cons_of_mem c h))]
    simp

theorem goLines_rowsToString :
    ∀ (rows : List EditorRow), (∀ r ∈ rows, '\n' ∉ r.raw) →
      goLines (editorRowsToString rows) = rows.map fun r => r.raw ++ ['\n'] := by
  intro rows
  induction rows with
  | nil => intro _; rfl
  | cons r rs ih =>
    intro h
    have hr : '\n' ∉ r.raw := h r (List.mem_cons_self r rs)
    have hstep : editorRowsToString (r :: rs) = r.raw ++ '\n' :: editorRowsToString rs := rfl
    rw [hstep, goLines, goLinesAux_line r.raw [] (editorRowsToString rs) hr, List.map_cons]
    have htail := ih fun x hx => h x (List.mem_cons_of_mem r hx)
    rw [goLines] at htail
    rw [htail]
    simp

theorem trimSuffixNl_append_nl (raw : List Char) : trimSuffixNl (raw ++ ['\n']) = raw := by
  rw [trimSuffixNl, if_pos]
  · rw [List.dropLast_append]
    simp
  · rw [List.getLast?_append]
    rfl

theorem map_raw_renumberInc (rows : List EditorRow) (p : Nat) :
    (renumberInc rows p).map EditorRow.raw = rows.map EditorRow.raw := by
  apply List.ext_getElem?
  intro n
  simp only [List.getElem?_map, renumberInc, List.getElem?_mapIdx]
  rcases rows[n]? with _ | r
  · rfl
  · split_ifs <;> rfl

theorem map_raw_renumberDec (rows : List EditorRow) (p : Nat) :
    (renumberDec rows p).map EditorRow.raw = rows.map EditorRow.raw := by
  apply List.ext_getElem?
  intro n
  simp only [List.getElem?_map, renumberDec, List.getElem?_mapIdx]
  rcases rows[n]? with _ | r
  · rfl
  · split_ifs <;> rfl

theorem map_listInsertAt (f : α → β) :
    ∀ (l : List α) (n : Nat) (x : α),
      (listInsertAt l n x).map f = listInsertAt (l.map f) n (f x) := by
  intro l
  induction l with
  | nil =>
    intro n x
    match n with
    | 0 => rfl
    | _ + 1 => rfl
  | cons h t ih =>
    intro n x
    match n with
    | 0 => rfl
    | m + 1 =>
      rw [listInsertAt, List.map_cons, List.map_cons, ih, listInsertAt]

theorem listInsertAt_length_self :
    ∀ (l : List α) (x : α), listInsertAt l l.length x = l ++ [x] := by
  intro l
  induction l with
  | nil => intro x; rfl
  | cons h t ih =>
    intro x
    rw [List.length_cons, listInsertAt, ih, List.cons_append]

theorem editorInsertRowDoc_append_raws (syn : Option EditorSyntax)
    (rows : List EditorRow) (line : List Char) :
    (editorInsertRowDoc syn rows rows.length line).map EditorRow.raw
      = rows.map EditorRow.raw ++ [line] := by
  rw [editorInsertRowDoc, editorUpdateRowAt_map_raw, map_raw_renumberInc, map_listInsertAt]
  have hlen : rows.length = (rows.map EditorRow.raw).length := (List.length_map _ _).symm
  rw [hlen, listInsertAt_length_self]

theorem openDocRows_foldl_raws (syn : Option EditorSyntax) :
    ∀ (lines : List (List Char)) (rows : List EditorRow),
      ((lines.foldl
          (fun rows line => editorInsertRowDoc syn rows rows.length (trimSuffixNl line))
          rows).map EditorRow.raw)
        = rows.map EditorRow.raw ++ lines.map trimSuffixNl := by
  intro lines
  induction lines with
  | nil => intro rows; simp
  | cons l ls ih =>
    intro rows
    rw [List.foldl_cons, ih, editorInsertRowDoc_append_raws, List.map_cons]
    simp

/-- C8, amended: the saved bytes are exactly the concatenation of every
row's raw content each followed by one newline, in row order; and provided
no row's raw content contains a newline, loading those bytes back yields
exactly the original raw row contents in order. -/
theorem c8_roundtrip (syn : Option EditorSyntax) (rows : List EditorRow)
    (h : ∀ r ∈ rows, '\n' ∉ r.raw) :
    editorRowsToString rows = (rows.map fun r => r.raw ++ ['\n']).flatten ∧
    (openDocRows syn (editorRowsToString rows)).map EditorRow.raw
      = rows.map EditorRow.raw := by
  constructor
  · induction rows with
    | nil => rfl
    | cons r rs ih =>
      have hstep : editorRowsToString (r :: rs) = r.raw ++ '\n' :: editorRowsToString rs := rfl
      rw [hstep, List.map_cons, List.flatten_cons, ih fun x hx => h x (List.mem_cons_of_mem r hx)]
      simp
  · rw [openDocRows, openDocRows_foldl_raws, goLines_rowsToString rows h]
    rw [List.map_map]
    have hcomp : (trimSuffixNl ∘ fun r : EditorRow => r.raw ++ ['\n']) = EditorRow.raw := by
      funext r
      exact trimSuffixNl_append_nl r.raw
    rw [hcomp]
    rfl

/-- C8 witness: the round trip evaluated on a concrete two-row document. -/
theorem c8_roundtrip_witness :
    editorRowsToString [mkPlainRow 0 "ab", mkPlainRow 1 "c"] = "ab\nc\n".toList ∧
    (openDocRows none (editorRowsToString [mkPlainRow 0 "ab", mkPlainRow 1 "c"])).map
        EditorRow.raw = [['a', 'b'], ['c']] := by
  refine ⟨by decide, ?_⟩
  have hmap := (c8_roundtrip none [mkPlainRow 0 "ab", mkPlainRow 1 "c"] (by decide)).2
  rw [hmap]
  decide

theorem resizeHl_normal (hl : List EHighlight) (n : Nat)
    (h : ∀ t ∈ hl, t = EHighlight.normal) :
    ∀ t ∈ resizeHl hl n, t = EHighlight.normal := by
  intro t ht
  rcases List.mem_append.mp ht with h1 | h2
  · exact h t (List.mem_of_mem_take h1)
  · exact List.eq_of_mem_replicate h2

/-- All highlight tags of every row are `normal`. -/
def allNormal (rows : List EditorRow) : Prop :=
  ∀ r ∈ rows, ∀ t ∈ r.highlight, t = EHighlight.normal

theorem editorUpdateSyntaxAt_none_allNormal (fuel : Nat) (rows : List EditorRow) (p : Nat)
    (h : allNormal rows) : allNormal (editorUpdateSyntaxAt none fuel rows p) := by
  match fuel with
  | 0 => exact h
  | fuel + 1 =>
    rw [editorUpdateSyntaxAt]
    rcases hp : rows[p]? with _ | row
    · exact h
    · intro r hr
      rcases List.mem_or_eq_of_mem_set hr with hmem | rfl
      · exact h r hmem
      · exact resizeHl_normal row.highlight row.render.length
          (h row (List.mem_iff_getElem?.mpr ⟨p, hp⟩))

theorem editorUpdateSyntaxAt_none_render (k : Nat) (rows : List EditorRow) (p : Nat)
    (row : EditorRow) (hp : rows[p]? = some row) :
    ((editorUpdateSyntaxAt none (k + 1) rows p)[p]?).map EditorRow.render
      = some row.render := by
  have hplt : p < rows.length := (List.getElem?_eq_some.mp hp).1
  simp only [editorUpdateSyntaxAt, hp]
  rw [List.getElem?_set_self hplt]
  rfl

/-- C4, amended: with no profile selected, recomputation still runs (the
rendered text at the updated row is recomputed from its raw text) and a
document whose tags are all normal keeps all tags normal; but the tag
array is only resized, not reset, so the non-normal tags exhibited in the
counterexample persist. -/
theorem c4_no_profile_resize :
    (∀ (rows : List EditorRow) (p : Nat), allNormal rows →
      allNormal (editorUpdateRowAt none rows p)) ∧
    (∀ (rows : List EditorRow) (p : Nat) (row : EditorRow), rows[p]? = some row →
      ((editorUpdateRowAt none rows p)[p]?).map EditorRow.render
        = some (renderOf row.raw)) := by
  constructor
  · intro rows p h
    rw [editorUpdateRowAt]
    rcases hp : rows[p]? with _ | row
    · exact h
    · apply editorUpdateSyntaxAt_none_allNormal
      intro r hr
      rcases List.mem_or_eq_of_mem_set hr with hmem | rfl
      · exact h r hmem
      · exact h row (List.mem_iff_getElem?.mpr ⟨p, hp⟩)
  · intro rows p row hp
    have hplt : p < rows.length := (List.getElem?_eq_some.mp hp).1
    rw [editorUpdateRowAt]
    simp only [hp]
    obtain ⟨k, hL⟩ : ∃ k, rows.length = k + 1 := ⟨rows.length - 1, by omega⟩
    rw [hL]
    exact editorUpdateSyntaxAt_none_render k _ p _
      (List.getElem?_set_self (by simpa using hplt))

/-- C4 witness: both amended conjuncts applied at a one-row all-normal
document. -/
theorem c4_no_profile_resize_witness :
    allNormal (editorUpdateRowAt none [mkPlainRow 0 "a"] 0) ∧
    ((editorUpdateRowAt none [mkPlainRow 0 "a"] 0)[0]?).map EditorRow.render
      = some ['a'] := by
  constructor
  · refine c4_no_profile_resize.1 [mkPlainRow 0 "a"] 0 ?_
    intro r hr t ht
    rw [List.mem_singleton] at hr
    subst hr
    exact List.eq_of_mem_replicate ht
  · exact c4_no_profile_resize.2 [mkPlainRow 0 "a"] 0 (mkPlainRow 0 "a") (by decide)

theorem fillRange_length :
    ∀ (n : Nat) (hl : List EHighlight) (i : Nat) (t : EHighlight),
      (fillRange hl i n t).length = hl.length := by
  intro n
  induction n with
  | zero => intro hl i t; rfl
  | succ m ih =>
    intro hl i t
    rw [fillRange, ih, List.length_set]

theorem resizeHl_length (hl : List EHighlight) (n : Nat) : (resizeHl hl n).length = n := by
  rw [resizeHl, List.length_append, List.length_take, List.length_replicate]
  omega

theorem updateSyntaxLoop_length (syn : EditorSyntax) (render : List Char) :
    ∀ (fuel i : Nat) (hl : List EHighlight) (ips : Bool) (ss : Char) (inC : Bool),
      (updateSyntaxLoop syn render fuel i hl ips ss inC).1.length = hl.length := by
  intro fuel
  induction fuel with
  | zero => intro i hl ips ss inC; rfl
  | succ n ih =>
    intro i hl ips ss inC
    rw [updateSyntaxLoop]
    rcases hk : (if ips then findKeyword render i syn.keywords else none) with _ | ⟨kw, sec⟩ <;>
      simp only [hk] <;>
      split_ifs <;>
      simp [ih, fillRange_length, List.length_set]

theorem editorUpdateSyntaxRow_length (syn : EditorSyntax) (render : List Char)
    (hl0 : List EHighlight) (inC0 : Bool) :
    (editorUpdateSyntaxRow syn render hl0 inC0).1.length = render.length := by
  rw [editorUpdateSyntaxRow, updateSyntaxLoop_length, resizeHl_length]

theorem renderOfAux_length :
    ∀ (l : List Char) (idx : Nat), l.length ≤ (renderOfAux l idx).length := by
  intro l
  induction l with
  | nil => intro idx; exact le_refl 0
  | cons ch t ih =>
    intro idx
    rw [renderOfAux]
    split_ifs with htab
    · have hpad : 0 < tabStop - idx % tabStop := by
        have : idx % tabStop < tabStop := Nat.mod_lt _ (by decide)
        omega
      rw [List.length_append, List.length_replicate]
      have := ih (idx + (tabStop - idx % tabStop))
      simp only [List.length_cons]
      omega
    · simp only [List.length_cons]
      have := ih (idx + 1)
      omega

theorem renderOf_length (raw : List Char) : raw.length ≤ (renderOf raw).length :=
  renderOfAux_length raw 0

/-- The per-row length invariant of the spec: one tag per rendered
character, and rendering never shrinks. -/
def rowLenOK (r : EditorRow) : Prop :=
  r.highlight.length = r.render.length ∧ r.raw.length ≤ r.render.length

/-- Every row of the document satisfies the length invariant. -/
def docLenOK (rows : List EditorRow) : Prop := ∀ r ∈ rows, rowLenOK r

theorem editorUpdateSyntaxAt_docLenOK (syn : Option EditorSyntax) :
    ∀ (fuel : Nat) (rows : List EditorRow) (p : Nat),
      docLenOK rows → docLenOK (editorUpdateSyntaxAt syn fuel rows p) := by
  intro fuel
  induction fuel with
  | zero => intro rows p h; exact h
  | succ n ih =>
    intro rows p h
    rcases hp : rows[p]? with _ | row
    · rw [editorUpdateSyntaxAt, hp]
      exact h
    · have hrow : rowLenOK row := h row (List.mem_iff_getElem?.mpr ⟨p, hp⟩)
      rw [editorUpdateSyntaxAt, hp]
      rcases syn with _ | s
      · intro r hr
        rcases List.mem_or_eq_of_mem_set hr with hmem | rfl
        · exact h r hmem
        · exact ⟨resizeHl_length _ _, hrow.2⟩
      · have hset : docLenOK (rows.set p
            { row with
              highlight := (editorUpdateSyntaxRow s row.render row.highlight
                (decide (0 < row.idx) &&
                  ((rows[row.idx - 1]?).map EditorRow.hasOpenComment).getD false)).1,
              hasOpenComment := (editorUpdateSyntaxRow s row.render row.highlight
                (decide (0 < row.idx) &&
                  ((rows[row.idx - 1]?).map EditorRow.hasOpenComment).getD false)).2 }) := by
          intro r hr
          rcases List.mem_or_eq_of_mem_set hr with hmem | rfl
          · exact h r hmem
          · exact ⟨editorUpdateSyntaxRow_length _ _ _ _, hrow.2⟩
        simp only [editorUpdateSyntaxAt, hp]
        split_ifs
        · exact ih _ _ hset
        · exact hset

theorem editorUpdateSyntaxAt_fix (syn : Option EditorSyntax) (fuel : Nat)
    (rows : List EditorRow) (p : Nat) (hfuel : 0 < fuel)
    (hraw : ∀ r ∈ rows, r.raw.length ≤ r.render.length)
    (hhl : ∀ q, q ≠ p → ∀ r, rows[q]? = some r → r.highlight.length = r.render.length) :
    docLenOK (editorUpdateSyntaxAt syn fuel rows p) := by
  obtain ⟨k, rfl⟩ : ∃ k, fuel = k + 1 := ⟨fuel - 1, by omega⟩
  have hskip : docLenOK rows → docLenOK rows := id
  rcases hp : rows[p]? with _ | row
  · rw [editorUpdateSyntaxAt, hp]
    intro r hr
    obtain ⟨q, hq⟩ := List.mem_iff_getElem?.mp hr
    rcases eq_or_ne q p with rfl | hne
    · rw [hp] at hq; cases hq
    · exact ⟨hhl q hne r hq, hraw r hr⟩
  · have hsetOK : ∀ row' : EditorRow,
        row'.highlight.length = row'.render.length →
        row'.raw.length ≤ row'.render.length →
        docLenOK (rows.set p row') := by
      intro row' h1 h2 r hr
      obtain ⟨q, hq⟩ := List.mem_iff_getElem?.mp hr
      rw [List.getElem?_set] at hq
      split_ifs at hq with he hlt
      · cases hq; exact ⟨h1, h2⟩
      · exact ⟨hhl q (fun hqp => he hqp.symm) r hq,
          hraw r (List.mem_iff_getElem?.mpr ⟨q, hq⟩)⟩
    have hrowraw : row.raw.length ≤ row.render.length :=
      hraw row (List.mem_iff_getElem?.mpr ⟨p, hp⟩)
    rcases syn with _ | s
    · rw [editorUpdateSyntaxAt, hp]
      exact hsetOK _ (resizeHl_length _ _) hrowraw
    · rw [editorUpdateSyntaxAt, hp]
      simp only [editorUpdateSyntaxAt, hp]
      split_ifs
      · exact editorUpdateSyntaxAt_docLenOK (some s) k _ _
          (hsetOK _ (editorUpdateSyntaxRow_length _ _ _ _) hrowraw)
      · exact hsetOK _ (editorUpdateSyntaxRow_length _ _ _ _) hrowraw

theorem editorUpdateRowAt_docLenOK (syn : Option EditorSyntax) (rows : List EditorRow)
    (p : Nat) (hp : p < rows.length)
    (h : ∀ q, q ≠ p → ∀ r, rows[q]? = some r → rowLenOK r) :
    docLenOK (editorUpdateRowAt syn rows p) := by
  have hsome : rows[p]? = some rows[p] := List.getElem?_eq_some.mpr ⟨hp, rfl⟩
  rw [editorUpdateRowAt, hsome]
  apply editorUpdateSyntaxAt_fix syn rows.length _ p (by omega)
  · intro r hr
    obtain ⟨q, hq⟩ := List.mem_iff_getElem?.mp hr
    rw [List.getElem?_set] at hq
    split_ifs at hq with he
    · cases hq; exact renderOf_length _
    · exact (h q (fun hqp => he hqp.symm) r hq).2
  · intro q hq r hr
    rw [List.getElem?_set, if_neg (fun hpq => hq hpq.symm)] at hr
    exact (h q hq r hr).1

theorem editorUpdateRowAt_docLenOK_of_set (syn : Option EditorSyntax)
    (rows : List EditorRow) (p : Nat) (row' : EditorRow) (hp : p < rows.length)
    (h : docLenOK rows) :
    docLenOK (editorUpdateRowAt syn (rows.set p row') p) := by
  apply editorUpdateRowAt_docLenOK syn _ p (by rw [List.length_set]; exact hp)
  intro q hq r hr
  rw [List.getElem?_set, if_neg (fun hpq => hq hpq.symm)] at hr
  exact h r (List.mem_iff_getElem?.mpr ⟨q, hr⟩)

theorem listInsertAt_length :
    ∀ (l : List α) (n : Nat) (x : α), (listInsertAt l n x).length = l.length + 1 := by
  intro l
  induction l with
  | nil =>
    intro n x
    match n with
    | 0 => rfl
    | _ + 1 => rfl
  | cons h t ih =>
    intro n x
    match n with
    | 0 => rfl
    | m + 1 =>
      rw [listInsertAt, List.length_cons, ih, List.length_cons]

theorem listInsertAt_getElem? :
    ∀ (l : List α) (n : Nat) (x : α) (q : Nat), n ≤ l.length →
      (listInsertAt l n x)[q]?
        = if q < n then l[q]? else if q = n then some x else l[q - 1]? := by
  intro l
  induction l with
  | nil =>
    intro n x q hn
    have hn0 : n = 0 := Nat.le_zero.mp hn
    subst hn0
    rw [if_neg (by omega)]
    rcases q with _ | q'
    · rw [if_pos rfl]; rfl
    · rw [if_neg (by omega)]
      show ([x] : List α)[q' + 1]? = ([] : List α)[q' + 1 - 1]?
      simp
  | cons h t ih =>
    intro n x q hn
    match n with
    | 0 =>
      rw [if_neg (by omega)]
      rcases q with _ | q'
      · rw [if_pos rfl]; rfl
      · rw [if_neg (by omega)]
        show (x :: h :: t)[q' + 1]? = (h :: t)[q' + 1 - 1]?
        simp
    | m + 1 =>
      rw [listInsertAt]
      rcases q with _ | q'
      · rw [if_pos (by omega)]
        simp
      · rw [List.getElem?_cons_succ, ih m x q' (by simpa using hn)]
        rcases Nat.lt_trichotomy q' m with hlt | heq | hgt
        · rw [if_pos hlt, if_pos (by omega), List.getElem?_cons_succ]
        · subst heq
          rw [if_neg (by omega), if_pos rfl, if_neg (by omega), if_pos rfl]
        · rw [if_neg (by omega), if_neg (by omega), if_neg (by omega), if_neg (by omega)]
          have hq1 : q' + 1 - 1 = q' := by omega
          rw [hq1]
          obtain ⟨k, rfl⟩ : ∃ k, q' = k + 1 := ⟨q' - 1, by omega⟩
          rw [List.getElem?_cons_succ]
          have hk : k + 1 - 1 = k := by omega
          rw [hk]

theorem docLenOK_renumberInc (rows : List EditorRow) (p : Nat) (h : docLenOK rows) :
    docLenOK (renumberInc rows p) := by
  intro r hr
  obtain ⟨q, hq⟩ := List.mem_iff_getElem?.mp hr
  rw [renumberInc, List.getElem?_mapIdx] at hq
  rcases hq0 : rows[q]? with _ | r0
  · rw [hq0] at hq; cases hq
  · rw [hq0] at hq
    have hmem : r0 ∈ rows := List.mem_iff_getElem?.mpr ⟨q, hq0⟩
    have hOK := h r0 hmem
    simp only [Option.map] at hq
    split_ifs at hq
    · cases hq
      exact ⟨hOK.1, hOK.2⟩
    · cases hq
      exact hOK

theorem docLenOK_renumberDec (rows : List EditorRow) (p : Nat) (h : docLenOK rows) :
    docLenOK (renumberDec rows p) := by
  intro r hr
  obtain ⟨q, hq⟩ := List.mem_iff_getElem?.mp hr
  rw [renumberDec, List.getElem?_mapIdx] at hq
  rcases hq0 : rows[q]? with _ | r0
  · rw [hq0] at hq; cases hq
  · rw [hq0] at hq
    have hmem : r0 ∈ rows := List.mem_iff_getElem?.mpr ⟨q, hq0⟩
    have hOK := h r0 hmem
    simp only [Option.map] at hq
    split_ifs at hq
    · cases hq
      exact ⟨hOK.1, hOK.2⟩
    · cases hq
      exact hOK

theorem editorInsertRowDoc_docLenOK (syn : Option EditorSyntax) (rows : List EditorRow)
    (at_ : Nat) (line : List Char) (hat : at_ ≤ rows.length) (h : docLenOK rows) :
    docLenOK (editorInsertRowDoc syn rows at_ line) := by
  rw [editorInsertRowDoc]
  apply editorUpdateRowAt_docLenOK syn _ at_
  · rw [renumberInc, List.length_mapIdx, listInsertAt_length]
    omega
  · intro q hq r hr
    rw [renumberInc, List.getElem?_mapIdx] at hr
    rcases hq0 : (listInsertAt rows at_
        { idx := at_, raw := line, render := [], highlight := [],
          hasOpenComment := false })[q]? with _ | r0
    · rw [hq0] at hr; cases hr
    · rw [hq0] at hr
      rw [listInsertAt_getElem? rows at_ _ q hat] at hq0
      have hr0 : r0 ∈ rows := by
        split_ifs at hq0 with h1
        · exact List.mem_iff_getElem?.mpr ⟨q, hq0⟩
        · exact List.mem_iff_getElem?.mpr ⟨q - 1, hq0⟩
      have hOK := h r0 hr0
      simp only [Option.map] at hr
      split_ifs at hr
      · cases hr
        exact ⟨hOK.1, hOK.2⟩
      · cases hr
        exact hOK

theorem editorRowInsertCharDoc_docLenOK (syn : Option EditorSyntax) (rows : List EditorRow)
    (p : Nat) (at_ : Int) (c : Char) (h : docLenOK rows) :
    docLenOK (editorRowInsertCharDoc syn rows p at_ c) := by
  rcases hp : rows[p]? with _ | row
  · rw [editorRowInsertCharDoc, hp]
    exact h
  · rw [editorRowInsertCharDoc]
    simp only [hp]
    exact editorUpdateRowAt_docLenOK_of_set syn rows p _
      (List.getElem?_eq_some.mp hp).1 h

theorem editorRowAppendStringDoc_docLenOK (syn : Option EditorSyntax) (rows : List EditorRow)
    (p : Nat) (s : List Char) (h : docLenOK rows) :
    docLenOK (editorRowAppendStringDoc syn rows p s) := by
  rcases hp : rows[p]? with _ | row
  · rw [editorRowAppendStringDoc, hp]
    exact h
  · rw [editorRowAppendStringDoc]
    simp only [hp]
    exact editorUpdateRowAt_docLenOK_of_set syn rows p _
      (List.getElem?_eq_some.mp hp).1 h

theorem editorRowDelCharDoc_docLenOK (syn : Option EditorSyntax) (rows : List EditorRow)
    (p : Nat) (at_ : Int) (h : docLenOK rows) :
    docLenOK (editorRowDelCharDoc syn rows p at_) := by
  rcases hp : rows[p]? with _ | row
  · rw [editorRowDelCharDoc, hp]
    exact h
  · rw [editorRowDelCharDoc]
    simp only [hp]
    split_ifs
    · exact h
    · exact editorUpdateRowAt_docLenOK_of_set syn rows p _
        (List.getElem?_eq_some.mp hp).1 h

theorem editorDelRowDoc_docLenOK (rows : List EditorRow) (at_ : Int) (h : docLenOK rows) :
    docLenOK (editorDelRowDoc rows at_) := by
  rw [editorDelRowDoc]
  split_ifs
  · exact h
  · apply docLenOK_renumberDec
    intro r hr
    exact h r (List.mem_of_mem_eraseIdx hr)

theorem editorInsertCharDoc_docLenOK (syn : Option EditorSyntax) (st : EditorState)
    (c : Char) (h : docLenOK st.rows) :
    docLenOK (editorInsertCharDoc syn st c).rows := by
  rw [editorInsertCharDoc]
  apply editorRowInsertCharDoc_docLenOK
  split_ifs
  · exact editorInsertRowDoc_docLenOK syn st.rows st.rows.length [] (le_refl _) h
  · exact h

theorem editorInsertNewlineDoc_docLenOK (syn : Option EditorSyntax) (st : EditorState)
    (hcy : st.cy ≤ st.rows.length) (h : docLenOK st.rows) :
    docLenOK (editorInsertNewlineDoc syn st).rows := by
  rw [editorInsertNewlineDoc]
  split_ifs
  · exact editorInsertRowDoc_docLenOK syn st.rows st.cy [] hcy h
  · rcases hp : st.rows[st.cy]? with _ | row
    · simp only [hp]
      exact h
    · simp only [hp]
      have h1 : docLenOK (editorInsertRowDoc syn st.rows (st.cy + 1) (row.raw.drop st.cx)) :=
        editorInsertRowDoc_docLenOK syn st.rows (st.cy + 1) _
          (by have := (List.getElem?_eq_some.mp hp).1; omega) h
      rcases hp2 : (editorInsertRowDoc syn st.rows (st.cy + 1) (row.raw.drop st.cx))[st.cy]?
          with _ | r2
      · simp only [hp2]
        exact h1
      · simp only [hp2]
        exact editorUpdateRowAt_docLenOK_of_set syn _ st.cy _
          (List.getElem?_eq_some.mp hp2).1 h1

theorem editorDelCharDoc_docLenOK (syn : Option EditorSyntax) (st : EditorState)
    (h : docLenOK st.rows) :
    docLenOK (editorDelCharDoc syn st).rows := by
  rw [editorDelCharDoc]
  by_cases h1 : st.cy = st.rows.length ∨ (st.cx = 0 ∧ st.cy = 0)
  · rw [if_pos h1]
    exact h
  · rw [if_neg h1]
    rcases hp : st.rows[st.cy]? with _ | row
    · simp only [hp]
      exact h
    · simp only [hp]
      by_cases h2 : 0 < st.cx
      · rw [if_pos h2]
        exact editorRowDelCharDoc_docLenOK syn st.rows st.cy _ h
      · rw [if_neg h2]
        exact editorDelRowDoc_docLenOK _ _
          (editorRowAppendStringDoc_docLenOK syn st.rows (st.cy - 1) row.raw h)

/-- C5: every modelled document mutation — character insert, delete and
append, row insertion, the newline split and backspace (including the
merge path and the row deletion inside it) — preserves the per-row length
invariant: the number of highlight tags equals the rendered length and the
rendered length is at least the raw length, for every row. -/
theorem c5_length_invariants :
    (∀ (syn : Option EditorSyntax) (rows : List EditorRow) (p : Nat) (at_ : Int) (c : Char),
      docLenOK rows → docLenOK (editorRowInsertCharDoc syn rows p at_ c)) ∧
    (∀ (syn : Option EditorSyntax) (rows : List EditorRow) (p : Nat) (at_ : Int),
      docLenOK rows → docLenOK (editorRowDelCharDoc syn rows p at_)) ∧
    (∀ (syn : Option EditorSyntax) (rows : List EditorRow) (p : Nat) (s : List Char),
      docLenOK rows → docLenOK (editorRowAppendStringDoc syn rows p s)) ∧
    (∀ (syn : Option EditorSyntax) (rows : List EditorRow) (at_ : Nat) (line : List Char),
      at_ ≤ rows.length → docLenOK rows → docLenOK (editorInsertRowDoc syn rows at_ line)) ∧
    (∀ (rows : List EditorRow) (at_ : Int),
      docLenOK rows → docLenOK (editorDelRowDoc rows at_)) ∧
    (∀ (syn : Option EditorSyntax) (st : EditorState) (c : Char),
      docLenOK st.rows → docLenOK (editorInsertCharDoc syn st c).rows) ∧
    (∀ (syn : Option EditorSyntax) (st : EditorState),
      st.cy ≤ st.rows.length → docLenOK st.rows →
        docLenOK (editorInsertNewlineDoc syn st).rows) ∧
    (∀ (syn : Option EditorSyntax) (st : EditorState),
      docLenOK st.rows → docLenOK (editorDelCharDoc syn st).rows) :=
  ⟨fun syn rows p at_ c => editorRowInsertCharDoc_docLenOK syn rows p at_ c,
   fun syn rows p at_ => editorRowDelCharDoc_docLenOK syn rows p at_,
   fun syn rows p s => editorRowAppendStringDoc_docLenOK syn rows p s,
   fun syn rows at_ line hat => editorInsertRowDoc_docLenOK syn rows at_ line hat,
   fun rows at_ => editorDelRowDoc_docLenOK rows at_,
   fun syn st c => editorInsertCharDoc_docLenOK syn st c,
   fun syn st hcy => editorInsertNewlineDoc_docLenOK syn st hcy,
   fun syn st => editorDelCharDoc_docLenOK syn st⟩

instance (r : EditorRow) : Decidable (rowLenOK r) := by
  unfold rowLenOK
  infer_instance

instance (rows : List EditorRow) : Decidable (docLenOK rows) := by
  unfold docLenOK
  infer_instance

/-- C5 witness: the invariant holds for the editor-built three-row
document and is preserved by the backspace-merge applied to it. -/
theorem c5_length_invariants_witness :
    docLenOK (editorDelCharDoc (some goSyntax) { rows := c2Doc, cx := 0, cy := 1 }).rows := by
  apply c5_length_invariants.2.2.2.2.2.2.2 (some goSyntax) { rows := c2Doc, cx := 0, cy := 1 }
  decide

theorem fillRange_getElem? :
    ∀ (n : Nat) (hl : List EHighlight) (i : Nat) (t : EHighlight) (j : Nat),
      (fillRange hl i n t)[j]?
        = if i ≤ j ∧ j < i + n ∧ j < hl.length then some t else hl[j]? := by
  intro n
  induction n with
  | zero => intro hl i t j; rw [fillRange, if_neg (by omega)]
  | succ m ih =>
    intro hl i t j
    rw [fillRange, ih, List.length_set, List.getElem?_set]
    split_ifs <;>
      first
      | rfl
      | omega
      | (exact (List.getElem?_eq_none (by omega)).symm)

theorem updateSyntaxLoop_frame (syn : EditorSyntax) (render : List Char) :
    ∀ (fuel i : Nat) (hl : List EHighlight) (ips : Bool) (ss : Char) (inC : Bool) (j : Nat),
      j < i → (updateSyntaxLoop syn render fuel i hl ips ss inC).1[j]? = hl[j]? := by
  intro fuel
  induction fuel with
  | zero => intro i hl ips ss inC j hj; rfl
  | succ n ih =>
    intro i hl ips ss inC j hj
    rw [updateSyntaxLoop]
    rcases hk : (if ips then findKeyword render i syn.keywords else none) with _ | ⟨kw, sec⟩ <;>
      simp only [hk] <;>
      split_ifs <;>
      (try dsimp only) <;>
      first
      | rfl
      | (rw [fillRange_getElem?, if_neg (by omega)])
      | (rw [ih] <;>
          first
          | omega
          | (rw [fillRange_getElem?, if_neg (by omega), List.getElem?_set_ne (by omega)])
          | (rw [fillRange_getElem?, if_neg (by omega)])
          | (rw [List.getElem?_set_ne (by omega), List.getElem?_set_ne (by omega)])
          | (rw [List.getElem?_set_ne (by omega)]))

/-- Every registered keyword pattern trims to a nonempty keyword (true of
the Go profile; rules out the degenerate empty keyword on which the
source's scan loop would not advance). -/
def keywordsWF (syn : EditorSyntax) : Prop :=
  ∀ kp ∈ syn.keywords, (if kp.getLast? == some '|' then kp.dropLast else kp) ≠ []

instance (syn : EditorSyntax) : Decidable (keywordsWF syn) := by
  unfold keywordsWF
  infer_instance

theorem findKeyword_ne_nil (render : List Char) (i : Nat) :
    ∀ (kps : List (List Char)) (kw : List Char) (sec : Bool),
      (∀ kp ∈ kps, (if kp.getLast? == some '|' then kp.dropLast else kp) ≠ []) →
      findKeyword render i kps = some (kw, sec) → kw ≠ [] := by
  intro kps
  induction kps with
  | nil => intro kw sec _ h; cases h
  | cons kp rest ih =>
    intro kw sec hwf h
    rw [findKeyword] at h
    split_ifs at h
    all_goals
      first
      | (exact ih kw sec (fun x hx => hwf x (List.mem_cons_of_mem kp hx)) h)
      | (cases h
         simpa [*] using hwf kp (List.mem_cons_self kp rest))

theorem findKeyword_le (render : List Char) (i : Nat) :
    ∀ (kps : List (List Char)) (kw : List Char) (sec : Bool),
      findKeyword render i kps = some (kw, sec) → i + kw.length ≤ render.length := by
  intro kps
  induction kps with
  | nil => intro kw sec h; cases h
  | cons kp rest ih =>
    intro kw sec h
    rw [findKeyword] at h
    split_ifs at h
    all_goals
      first
      | (exact ih kw sec h)
      | (cases h
         rename_i hc
         simp only [Bool.or_eq_true, Bool.and_eq_true, decide_eq_true_eq, beq_iff_eq] at hc
         rcases hc with ⟨hlt, _⟩ | heq <;> omega)

theorem prevHlAt_congr (i : Nat) (hl1 hl2 : List EHighlight)
    (h : ∀ j, j < i → hl1[j]? = hl2[j]?) : prevHlAt hl1 i = prevHlAt hl2 i := by
  rw [prevHlAt, prevHlAt]
  split_ifs with h0
  · rw [List.getD_eq_getElem?_getD, List.getD_eq_getElem?_getD, h (i - 1) (by omega)]
  · rfl

theorem agree_set (i : Nat) (hl1 hl2 : List EHighlight) (v : EHighlight)
    (hlen : hl1.length = hl2.length) (h : ∀ j, j < i → hl1[j]? = hl2[j]?) :
    ∀ j, j < i + 1 → (hl1.set i v)[j]? = (hl2.set i v)[j]? := by
  intro j hj
  rw [List.getElem?_set, List.getElem?_set, hlen]
  by_cases he : i = j
  · rw [if_pos he, if_pos he]
  · rw [if_neg he, if_neg he]
    exact h j (by omega)

theorem agree_fill (v : EHighlight) :
    ∀ (n i : Nat) (hl1 hl2 : List EHighlight),
      hl1.length = hl2.length → (∀ j, j < i → hl1[j]? = hl2[j]?) →
      ∀ j, j < i + n → (fillRange hl1 i n v)[j]? = (fillRange hl2 i n v)[j]? := by
  intro n
  induction n with
  | zero =>
    intro i hl1 hl2 hlen h j hj
    rw [fillRange, fillRange]
    exact h j (by omega)
  | succ m ih =>
    intro i hl1 hl2 hlen h j hj
    rw [fillRange, fillRange]
    exact ih (i + 1) _ _ (by rw [List.length_set, List.length_set, hlen])
      (agree_set i hl1 hl2 v hlen h) j (by omega)

theorem loop_tail_congr (syn : EditorSyntax) (render : List Char) (n i i2 : Nat)
    (hl1' hl2' : List EHighlight) (ips' : Bool) (ss' : Char) (inC' : Bool)
    (hagree' : ∀ j, j < i2 → hl1'[j]? = hl2'[j]?)
    (hres : (updateSyntaxLoop syn render n i2 hl1' ips' ss' inC').2
              = (updateSyntaxLoop syn render n i2 hl2' ips' ss' inC').2
            ∧ ∀ j, i2 ≤ j → (updateSyntaxLoop syn render n i2 hl1' ips' ss' inC').1[j]?
              = (updateSyntaxLoop syn render n i2 hl2' ips' ss' inC').1[j]?) :
    (updateSyntaxLoop syn render n i2 hl1' ips' ss' inC').2
      = (updateSyntaxLoop syn render n i2 hl2' ips' ss' inC').2
    ∧ ∀ j, i ≤ j → (updateSyntaxLoop syn render n i2 hl1' ips' ss' inC').1[j]?
        = (updateSyntaxLoop syn render n i2 hl2' ips' ss' inC').1[j]? := by
  refine ⟨hres.1, ?_⟩
  intro j hj
  rcases lt_or_le j i2 with hj2 | hj2
  · rw [updateSyntaxLoop_frame syn render n i2 hl1' ips' ss' inC' j hj2,
      updateSyntaxLoop_frame syn render n i2 hl2' ips' ss' inC' j hj2]
    exact hagree' j hj2
  · exact hres.2 j hj2

theorem updateSyntaxLoop_congr (syn : EditorSyntax) (render : List Char)
    (hwf : keywordsWF syn) :
    ∀ (fuel i : Nat) (hl1 hl2 : List EHighlight) (ips : Bool) (ss : Char) (inC : Bool),
      render.length - i ≤ fuel →
      hl1.length = render.length →
      hl2.length = render.length →
      (∀ j, j < i → hl1[j]? = hl2[j]?) →
      (updateSyntaxLoop syn render fuel i hl1 ips ss inC).2
        = (updateSyntaxLoop syn render fuel i hl2 ips ss inC).2
      ∧ ∀ j, i ≤ j →
          (updateSyntaxLoop syn render fuel i hl1 ips ss inC).1[j]?
            = (updateSyntaxLoop syn render fuel i hl2 ips ss inC).1[j]? := by
  intro fuel
  induction fuel with
  | zero =>
    intro i hl1 hl2 ips ss inC hfuel hL1 hL2 hagree
    refine ⟨rfl, ?_⟩
    intro j hj
    show hl1[j]? = hl2[j]?
    rw [List.getElem?_eq_none (by omega), List.getElem?_eq_none (by omega)]
  | succ n ih =>
    intro i hl1 hl2 ips ss inC hfuel hL1 hL2 hagree
    by_cases hi : i < render.length
    case neg =>
      rw [updateSyntaxLoop, updateSyntaxLoop, if_neg hi, if_neg hi]
      refine ⟨rfl, ?_⟩
      intro j hj
      show hl1[j]? = hl2[j]?
      rw [List.getElem?_eq_none (by omega), List.getElem?_eq_none (by omega)]
    case pos =>
      rw [updateSyntaxLoop, updateSyntaxLoop, if_pos hi, if_pos hi,
        prevHlAt_congr i hl1 hl2 hagree]
      have hlen12 : hl1.length = hl2.length := by omega
      by_cases hg1 : lineCommentGuard syn render i ss inC = true
      · rw [if_pos hg1, if_pos hg1]
        refine ⟨rfl, ?_⟩
        intro j hj
        show (fillRange hl1 i (hl1.length - i) EHighlight.comment)[j]?
          = (fillRange hl2 i (hl2.length - i) EHighlight.comment)[j]?
        rw [fillRange_getElem?, fillRange_getElem?, hL1, hL2]
        split_ifs with hc1
        · rfl
        · rw [List.getElem?_eq_none (by omega), List.getElem?_eq_none (by omega)]
      · rw [if_neg hg1, if_neg hg1]
        by_cases hg2 : blockCommentGuard syn render i ss inC = true
        · rw [if_pos hg2, if_pos hg2]
          have hpos : 0 < syn.multilineCommentStart.length ∧
              0 < syn.multilineCommentEnd.length := by
            have h2 := hg2
            simp only [blockCommentGuard, Bool.and_eq_true, decide_eq_true_eq] at h2
            exact ⟨h2.1.1.1, h2.1.1.2⟩
          by_cases hin : inC = true
          · rw [if_pos hin, if_pos hin]
            by_cases hcl : pfxOf syn.multilineCommentEnd (render.drop i) = true
            · rw [if_pos hcl, if_pos hcl]
              have hagr : ∀ j, j < i + syn.multilineCommentEnd.length →
                  (fillRange (hl1.set i EHighlight.multiComment) i
                    syn.multilineCommentEnd.length EHighlight.multiComment)[j]?
                  = (fillRange (hl2.set i EHighlight.multiComment) i
                    syn.multilineCommentEnd.length EHighlight.multiComment)[j]? :=
                agree_fill EHighlight.multiComment syn.multilineCommentEnd.length i _ _
                  (by rw [List.length_set, List.length_set, hlen12])
                  (fun j hj => agree_set i hl1 hl2 EHighlight.multiComment hlen12 hagree j
                    (by omega))
              exact loop_tail_congr syn render n i _ _ _ _ _ _ hagr
                (ih _ _ _ _ _ _ (by omega)
                  (by rw [fillRange_length, List.length_set, hL1])
                  (by rw [fillRange_length, List.length_set, hL2])
                  (fun j hj => hagr j hj))
            · rw [if_neg hcl, if_neg hcl]
              exact loop_tail_congr syn render n i _ _ _ _ _ _
                (agree_set i hl1 hl2 EHighlight.multiComment hlen12 hagree)
                (ih _ _ _ _ _ _ (by omega)
                  (by rw [List.length_set, hL1])
                  (by rw [List.length_set, hL2])
                  (fun j hj => agree_set i hl1 hl2 EHighlight.multiComment hlen12 hagree j hj))
          · rw [if_neg hin, if_neg hin]
            have hagr : ∀ j, j < i + syn.multilineCommentStart.length →
                (fillRange hl1 i syn.multilineCommentStart.length EHighlight.multiComment)[j]?
                = (fillRange hl2 i syn.multilineCommentStart.length EHighlight.multiComment)[j]? :=
              agree_fill EHighlight.multiComment syn.multilineCommentStart.length i _ _
                hlen12 hagree
            exact loop_tail_congr syn render n i _ _ _ _ _ _ hagr
              (ih _ _ _ _ _ _ (by omega)
                (by rw [fillRange_length, hL1])
                (by rw [fillRange_length, hL2])
                (fun j hj => hagr j hj))
        · rw [if_neg hg2, if_neg hg2]
          by_cases hg3 : stringGuard syn (render.getD i nullChar) ss = true
          · rw [if_pos hg3, if_pos hg3]
            by_cases hss : (!(ss == nullChar)) = true
            · rw [if_pos hss, if_pos hss]
              by_cases hesc : (render.getD i nullChar == '\\' &&
                  decide (i + 1 < render.length)) = true
              · rw [if_pos hesc, if_pos hesc]
                have hagr : ∀ j, j < i + 2 →
                    ((hl1.set i EHighlight.stringHl).set (i + 1) EHighlight.stringHl)[j]?
                    = ((hl2.set i EHighlight.stringHl).set (i + 1) EHighlight.stringHl)[j]? := by
                  intro j hj
                  exact agree_set (i + 1) _ _ EHighlight.stringHl
                    (by rw [List.length_set, List.length_set, hlen12])
                    (fun j' hj' => agree_set i hl1 hl2 EHighlight.stringHl hlen12 hagree j' hj')
                    j (by omega)
                exact loop_tail_congr syn render n i _ _ _ _ _ _ hagr
                  (ih _ _ _ _ _ _ (by omega)
                    (by rw [List.length_set, List.length_set, hL1])
                    (by rw [List.length_set, List.length_set, hL2])
                    (fun j hj => hagr j hj))
              · rw [if_neg hesc, if_neg hesc]
                exact loop_tail_congr syn render n i _ _ _ _ _ _
                  (agree_set i hl1 hl2 EHighlight.stringHl hlen12 hagree)
                  (ih _ _ _ _ _ _ (by omega)
                    (by rw [List.length_set, hL1])
                    (by rw [List.length_set, hL2])
                    (fun j hj => agree_set i hl1 hl2 EHighlight.stringHl hlen12 hagree j hj))
            · rw [if_neg hss, if_neg hss]
              exact loop_tail_congr syn render n i _ _ _ _ _ _
                (agree_set i hl1 hl2 EHighlight.stringHl hlen12 hagree)
                (ih _ _ _ _ _ _ (by omega)
                  (by rw [List.length_set, hL1])
                  (by rw [List.length_set, hL2])
                  (fun j hj => agree_set i hl1 hl2 EHighlight.stringHl hlen12 hagree j hj))
          · rw [if_neg hg3, if_neg hg3]
            by_cases hg4 : numberGuard syn (render.getD i nullChar) (prevHlAt hl2 i) ips = true
            · rw [if_pos hg4, if_pos hg4]
              exact loop_tail_congr syn render n i _ _ _ _ _ _
                (agree_set i hl1 hl2 EHighlight.number hlen12 hagree)
                (ih _ _ _ _ _ _ (by omega)
                  (by rw [List.length_set, hL1])
                  (by rw [List.length_set, hL2])
                  (fun j hj => agree_set i hl1 hl2 EHighlight.number hlen12 hagree j hj))
            · rw [if_neg hg4, if_neg hg4]
              rcases hscr : (if ips then findKeyword render i syn.keywords else none)
                  with _ | ⟨kw, sec⟩
              · simp only [hscr]
                exact loop_tail_congr syn render n i _ _ _ _ _ _
                  (agree_set i hl1 hl2 EHighlight.normal hlen12 hagree)
                  (ih _ _ _ _ _ _ (by omega)
                    (by rw [List.length_set, hL1])
                    (by rw [List.length_set, hL2])
                    (fun j hj => agree_set i hl1 hl2 EHighlight.normal hlen12 hagree j hj))
              · simp only [hscr]
                have hfind : findKeyword render i syn.keywords = some (kw, sec) := by
                  by_cases hips : ips = true
                  · rwa [if_pos hips] at hscr
                  · rw [if_neg hips] at hscr
                    cases hscr
                have hkw1 : kw ≠ [] :=
                  findKeyword_ne_nil render i syn.keywords kw sec hwf hfind
                have hkwlen : 0 < kw.length := List.length_pos.mpr hkw1
                have hkwle : i + kw.length ≤ render.length :=
                  findKeyword_le render i syn.keywords kw sec hfind
                have hagr : ∀ j, j < i + kw.length →
                    (fillRange hl1 i (render.length - i)
                      (if sec then EHighlight.keyword2 else EHighlight.keyword1))[j]?
                    = (fillRange hl2 i (render.length - i)
                      (if sec then EHighlight.keyword2 else EHighlight.keyword1))[j]? := by
                  intro j hj
                  exact agree_fill _ (render.length - i) i _ _ hlen12 hagree j (by omega)
                exact loop_tail_congr syn render n i _ _ _ _ _ _ hagr
                  (ih _ _ _ _ _ _ (by omega)
                    (by rw [fillRange_length, hL1])
                    (by rw [fillRange_length, hL2])
                    (fun j hj => hagr j hj))

/-- C1: when the scan reaches classification rule 5 with a separator
before the current position (rules 1–4 not applicable) and a keyword
matches there, the whole result of the scan equals the scan continued past
the keyword with exactly the keyword's span tagged (keyword-secondary for
a `"|"`-registered keyword, keyword-primary otherwise) and `isPrevSep`
cleared — so characters after the span are classified by the ordinary
rules, not by the keyword's tag — and every position of the span carries
the keyword tag in the final result. -/
theorem c1_keyword_rule_step
    (syn : EditorSyntax) (render : List Char) (fuel i : Nat) (hl : List EHighlight)
    (ss : Char) (inC : Bool) (kw : List Char) (sec : Bool)
    (hwf : keywordsWF syn)
    (hlen : hl.length = render.length)
    (hi : i < render.length)
    (hfuel : render.length - i ≤ fuel + 1)
    (h1 : lineCommentGuard syn render i ss inC = false)
    (h2 : blockCommentGuard syn render i ss inC = false)
    (h3 : stringGuard syn (render.getD i nullChar) ss = false)
    (h4 : numberGuard syn (render.getD i nullChar) (prevHlAt hl i) true = false)
    (h6 : findKeyword render i syn.keywords = some (kw, sec)) :
    updateSyntaxLoop syn render (fuel + 1) i hl true ss inC
      = updateSyntaxLoop syn render fuel (i + kw.length)
          (fillRange hl i kw.length (if sec then EHighlight.keyword2 else EHighlight.keyword1))
          false ss inC
    ∧ ∀ j, i ≤ j → j < i + kw.length →
        (updateSyntaxLoop syn render (fuel + 1) i hl true ss inC).1[j]?
          = some (if sec then EHighlight.keyword2 else EHighlight.keyword1) := by
  have hkw : kw ≠ [] := findKeyword_ne_nil render i syn.keywords kw sec hwf h6
  have hkwlen : 0 < kw.length := List.length_pos.mpr hkw
  have hkwle : i + kw.length ≤ render.length := findKeyword_le render i syn.keywords kw sec h6
  have hunfold : updateSyntaxLoop syn render (fuel + 1) i hl true ss inC
      = updateSyntaxLoop syn render fuel (i + kw.length)
          (fillRange hl i (render.length - i)
            (if sec then EHighlight.keyword2 else EHighlight.keyword1))
          false ss inC := by
    rw [updateSyntaxLoop, if_pos hi, if_neg (by rw [h1]; simp), if_neg (by rw [h2]; simp),
      if_neg (by rw [h3]; simp), if_neg (by rw [h4]; simp)]
    have hscr : (if (true : Bool) then findKeyword render i syn.keywords else none)
        = some (kw, sec) := by rw [if_pos rfl, h6]
    rw [hscr]
  have hAB : ∀ j, j < i + kw.length →
      (fillRange hl i (render.length - i)
        (if sec then EHighlight.keyword2 else EHighlight.keyword1))[j]?
      = (fillRange hl i kw.length
        (if sec then EHighlight.keyword2 else EHighlight.keyword1))[j]? := by
    intro j hj
    rw [fillRange_getElem?, fillRange_getElem?, hlen]
    by_cases hij : i ≤ j
    · have hcond1 : i ≤ j ∧ j < i + (render.length - i) ∧ j < render.length :=
        ⟨hij, by omega, by omega⟩
      have hcond2 : i ≤ j ∧ j < i + kw.length ∧ j < render.length := ⟨hij, hj, by omega⟩
      rw [if_pos hcond1, if_pos hcond2]
    · rw [if_neg (by omega), if_neg (by omega)]
  have hcongr := updateSyntaxLoop_congr syn render hwf fuel (i + kw.length)
    (fillRange hl i (render.length - i)
      (if sec then EHighlight.keyword2 else EHighlight.keyword1))
    (fillRange hl i kw.length
      (if sec then EHighlight.keyword2 else EHighlight.keyword1))
    false ss inC (by omega) (by rw [fillRange_length, hlen]) (by rw [fillRange_length, hlen])
    hAB
  have h1st : (updateSyntaxLoop syn render fuel (i + kw.length)
      (fillRange hl i (render.length - i)
        (if sec then EHighlight.keyword2 else EHighlight.keyword1)) false ss inC).1
      = (updateSyntaxLoop syn render fuel (i + kw.length)
        (fillRange hl i kw.length
          (if sec then EHighlight.keyword2 else EHighlight.keyword1)) false ss inC).1 := by
    apply List.ext_getElem?
    intro j
    rcases lt_or_le j (i + kw.length) with hj | hj
    · rw [updateSyntaxLoop_frame syn render fuel (i + kw.length) _ false ss inC j hj,
        updateSyntaxLoop_frame syn render fuel (i + kw.length) _ false ss inC j hj]
      exact hAB j hj
    · exact hcongr.2 j hj
  have hmain : updateSyntaxLoop syn render (fuel + 1) i hl true ss inC
      = updateSyntaxLoop syn render fuel (i + kw.length)
          (fillRange hl i kw.length
            (if sec then EHighlight.keyword2 else EHighlight.keyword1))
          false ss inC :=
    hunfold.trans (Prod.ext_iff.mpr ⟨h1st, hcongr.1⟩)
  refine ⟨hmain, ?_⟩
  intro j hj1 hj2
  have hcond : i ≤ j ∧ j < i + kw.length ∧ j < hl.length := ⟨hj1, hj2, by omega⟩
  rw [hmain, updateSyntaxLoop_frame syn render fuel (i + kw.length) _ false ss inC j hj2,
    fillRange_getElem?, if_pos hcond]

/-- C1 witness: rule 5 applied at position 0 of the Go-profile row
`"if x"`: the scan equals its continuation past `"if"` with only the
two-character span tagged keyword-primary, and both span positions carry
keyword-primary in the final tags. -/
theorem c1_keyword_rule_step_witness :
    (updateSyntaxLoop goSyntax ("if x".toList) 4 0
        (List.replicate 4 EHighlight.normal) true nullChar false).1[0]?
      = some EHighlight.keyword1 ∧
    (updateSyntaxLoop goSyntax ("if x".toList) 4 0
        (List.replicate 4 EHighlight.normal) true nullChar false).1[1]?
      = some EHighlight.keyword1 ∧
    (updateSyntaxLoop goSyntax ("if x".toList) 4 0
        (List.replicate 4 EHighlight.normal) true nullChar false).1
      = [EHighlight.keyword1, EHighlight.keyword1, EHighlight.normal, EHighlight.normal] := by
  have h := c1_keyword_rule_step goSyntax ("if x".toList) 3 0
    (List.replicate 4 EHighlight.normal) nullChar false ("if".toList) false
    (by decide) (by decide) (by decide) (by decide)
    (by decide) (by decide) (by decide) (by decide) (by decide)
  exact ⟨h.2 0 (by decide) (by decide), h.2 1 (by decide) (by decide), by decide⟩
